import Mathlib

/-!
Verification of the clique-tree core of the TD Mk Landscape problem generator.

The Rust source (src/problem/clique_tree.rs and src/problem/codomain_subclasses.rs)
is embedded shallowly:

* machine floats (f64) are modelled as rationals, so all fitness arithmetic is exact;
* Vec values become List values, indexing becomes List.getD with the noted defaults
  (the Rust code panics on an out-of-bounds index; every theorem below carries the
  bounds hypotheses under which the defaults are never read);
* the ChaCha random number generator is modelled by oracles: the post-shuffle
  permutation of the variable indices is a parameter, and the per-child shuffle of a
  parent clique is a function from the child counter and the list to the shuffled
  list, constrained to produce permutations where a theorem needs it;
* the mutable number_evaluations counters (incremented once per evaluation call and
  otherwise unused) are omitted from the fitness functions;
* fallible operations (the expect in get_child_separator_substring) return Option.
-/

/-! ## Fitness comparators (clique_tree.rs, lines 887-901) -/

def FITNESS_EPSILON : ℚ := 1 / 10000000000

structure SolutionFit where
  solution : List ℕ
  fitness : ℚ
deriving DecidableEq

def is_better_fitness (fitness1 fitness2 : ℚ) : Bool :=
  decide (fitness1 > fitness2) && decide (|fitness1 - fitness2| ≥ FITNESS_EPSILON)

def is_worse_fitness (fitness1 fitness2 : ℚ) : Bool :=
  decide (fitness1 < fitness2) && decide (|fitness1 - fitness2| ≥ FITNESS_EPSILON)

def is_equal_fitness (fitness1 fitness2 : ℚ) : Bool :=
  decide (|fitness1 - fitness2| < FITNESS_EPSILON)

def is_better_or_equal_fitness (fitness1 fitness2 : ℚ) : Bool :=
  decide (fitness1 > fitness2) || is_equal_fitness fitness1 fitness2

theorem is_better_fitness_iff (a b : ℚ) :
    is_better_fitness a b = true ↔ b < a ∧ FITNESS_EPSILON ≤ |a - b| := by
  simp [is_better_fitness, ge_iff_le]

theorem is_equal_fitness_iff (a b : ℚ) :
    is_equal_fitness a b = true ↔ |a - b| < FITNESS_EPSILON := by
  simp [is_equal_fitness]

theorem is_better_or_equal_fitness_iff (a b : ℚ) :
    is_better_or_equal_fitness a b = true ↔ b < a ∨ |a - b| < FITNESS_EPSILON := by
  simp [is_better_or_equal_fitness, is_equal_fitness]

/-! ## The clique tree data model (clique_tree.rs, lines 17-100) -/

structure InputParameters where
  m : ℕ
  k : ℕ
  o : ℕ
  b : ℕ
deriving DecidableEq

inductive CodomainFunction where
  | Random : CodomainFunction
  | Trap : CodomainFunction
  | DeceptiveTrap : CodomainFunction
  | NKq : ℕ → CodomainFunction
  | NKp : ℚ → CodomainFunction
  | RandomDeceptiveTrap : ℚ → CodomainFunction
  | Unknown : CodomainFunction
deriving DecidableEq

structure CliqueTree where
  input_parameters : InputParameters
  codomain_function : CodomainFunction
  cliques : List (List ℕ)
  codomain_values : List (List ℚ)
  glob_optima_strings : List (List ℕ)
  glob_optima_score : ℚ

/-! ## Fitness evaluation (clique_tree.rs, lines 733-849)

The inner loop of calculate_fitness packs, for one clique, the solution bits at the
clique variable positions into a table index, most significant bit first; the loop
runs over the clique positions in reverse order.
-/

def clique_substring_as_index (solution : List ℕ) (clique : List ℕ) : ℕ :=
  (List.range clique.length).reverse.foldl
    (fun acc j => acc + solution.getD (clique.getD j 0) 0 <<< (clique.length - j - 1)) 0

def CliqueTree.calculate_fitness (ct : CliqueTree) (solution : List ℕ) : ℚ :=
  (List.range ct.cliques.length).foldl
    (fun fitness clique_index =>
      fitness + (ct.codomain_values.getD clique_index []).getD
        (clique_substring_as_index solution (ct.cliques.getD clique_index [])) 0)
    0

/-- In the Rust delta loop, clique_mutation_index starts at 0 and is overwritten by j
whenever position j of the clique holds the mutated variable, while j runs downwards
over the clique positions. -/
def clique_mutation_index (clique : List ℕ) (index_mutation : ℕ) : ℕ :=
  (List.range clique.length).reverse.foldl
    (fun acc j => if clique.getD j 0 = index_mutation then j else acc) 0

def CliqueTree.calculate_fitness_delta (ct : CliqueTree) (current_solutionfit : SolutionFit)
    (index_mutation : ℕ) : ℚ :=
  (List.range ct.cliques.length).foldl
    (fun fitness clique_index =>
      let clique := ct.cliques.getD clique_index []
      if index_mutation ∈ clique then
        let cidx := clique_substring_as_index current_solutionfit.solution clique
        let cmi := clique_mutation_index clique index_mutation
        let fitness1 := fitness - (ct.codomain_values.getD clique_index []).getD cidx 0
        let cidx2 :=
          if current_solutionfit.solution.getD (clique.getD cmi 0) 0 = 0 then
            cidx + 1 <<< (clique.length - cmi - 1)
          else
            cidx - 1 <<< (clique.length - cmi - 1)
        fitness1 + (ct.codomain_values.getD clique_index []).getD cidx2 0
      else fitness)
    current_solutionfit.fitness

def CliqueTree.is_global_optimum (ct : CliqueTree) (solution_fit : SolutionFit) : Bool :=
  decide (solution_fit.fitness = ct.glob_optima_score) ||
    (decide (|ct.glob_optima_score - solution_fit.fitness| < FITNESS_EPSILON) &&
      ct.glob_optima_strings.contains solution_fit.solution)

/-- Flipping one bit of a 0/1 solution vector, the mutation whose effect
calculate_fitness_delta predicts. -/
def flip_at (solution : List ℕ) (index : ℕ) : List ℕ :=
  solution.set index (1 - solution.getD index 0)

/-! ## Generic fold-to-sum helpers -/

theorem foldl_add_eq_sum {α : Type} {M : Type} [AddCommMonoid M] (f : α → M) :
    ∀ (l : List α) (a : M), l.foldl (fun acc x => acc + f x) a = a + (l.map f).sum := by
  intro l
  induction l with
  | nil => intro a; simp
  | cons x xs ih =>
      intro a
      simp only [List.foldl_cons, List.map_cons, List.sum_cons, ih (a + f x)]
      rw [add_assoc]

theorem list_sum_range_map {M : Type} [AddCommMonoid M] (f : ℕ → M) (n : ℕ) :
    ((List.range n).map f).sum = ∑ j ∈ Finset.range n, f j := by
  induction n with
  | zero => simp
  | succ n ih => rw [List.range_succ, List.map_append, List.sum_append, Finset.sum_range_succ, ih]; simp

theorem foldl_add_eq_sum_range {M : Type} [AddCommMonoid M] (f : ℕ → M) (n : ℕ) (a : M) :
    (List.range n).reverse.foldl (fun acc x => acc + f x) a = a + ∑ j ∈ Finset.range n, f j := by
  rw [foldl_add_eq_sum, List.map_reverse, List.sum_reverse, list_sum_range_map]

/-! ## Claim C5: comparator semantics -/

/-- C5: for all fitness values a and b, is_better_fitness a b holds exactly when a > b
and the absolute difference is at least FITNESS_EPSILON, is_equal_fitness a b holds
exactly when the absolute difference is below FITNESS_EPSILON, the two are never
simultaneously true, and is_equal_fitness is symmetric. -/
theorem c5_comparator_semantics (a b : ℚ) :
    (is_better_fitness a b = true ↔ (a > b ∧ |a - b| ≥ FITNESS_EPSILON)) ∧
    (is_equal_fitness a b = true ↔ |a - b| < FITNESS_EPSILON) ∧
    (¬ (is_better_fitness a b = true ∧ is_equal_fitness a b = true)) ∧
    (is_equal_fitness a b = is_equal_fitness b a) := by
  refine ⟨is_better_fitness_iff a b, is_equal_fitness_iff a b, ?_, ?_⟩
  · rintro ⟨hb, he⟩
    rw [is_better_fitness_iff] at hb
    rw [is_equal_fitness_iff] at he
    exact absurd he (not_lt.mpr hb.2)
  · simp [is_equal_fitness, abs_sub_comm]

/-! ## Claim C7: the cached global-optimum membership test -/

/-- C7: is_global_optimum returns true exactly when the fitness equals the cached
optimum score, or differs from it by less than FITNESS_EPSILON while the solution
string is a member of the cached optimal-string list; in particular a string outside
the cached list whose fitness is close to but different from the score is rejected. -/
theorem c7_is_global_optimum_semantics (ct : CliqueTree) (sf : SolutionFit) :
    (ct.is_global_optimum sf = true ↔
      (sf.fitness = ct.glob_optima_score ∨
        (|ct.glob_optima_score - sf.fitness| < FITNESS_EPSILON ∧
          sf.solution ∈ ct.glob_optima_strings))) ∧
    (sf.solution ∉ ct.glob_optima_strings → sf.fitness ≠ ct.glob_optima_score →
      ct.is_global_optimum sf = false) := by
  constructor
  · simp [CliqueTree.is_global_optimum, List.contains]
  · intro h1 h2
    simp [CliqueTree.is_global_optimum, List.contains, h1, h2]

def c7_tree : CliqueTree :=
  ⟨⟨1, 1, 0, 1⟩, CodomainFunction.Unknown, [[0]], [[0, 1]], [[1]], 1⟩

theorem c7_witness : CliqueTree.is_global_optimum c7_tree ⟨[0], 0⟩ = false :=
  (c7_is_global_optimum_semantics c7_tree ⟨[0], 0⟩).2 (by decide) (by norm_num [c7_tree])

/-! ## Bit-index arithmetic for the fitness evaluators -/

theorem clique_substring_as_index_eq_sum (solution clique : List ℕ) :
    clique_substring_as_index solution clique
      = ∑ j ∈ Finset.range clique.length,
          solution.getD (clique.getD j 0) 0 * 2 ^ (clique.length - j - 1) := by
  simp only [clique_substring_as_index]
  rw [foldl_add_eq_sum_range (fun j => solution.getD (clique.getD j 0) 0 <<< (clique.length - j - 1))]
  simp [Nat.shiftLeft_eq]

theorem getD_eq_getElem_of_lt {α : Type} (l : List α) (d : α) (j : ℕ) (h : j < l.length) :
    l.getD j d = l[j] := by
  simp [List.getD_eq_getElem?_getD, List.getElem?_eq_getElem h]

theorem getD_mem_of_lt {α : Type} (l : List α) (d : α) (j : ℕ) (h : j < l.length) :
    l.getD j d ∈ l := by
  rw [getD_eq_getElem_of_lt l d j h]
  exact List.getElem_mem h

theorem flip_at_getD_ne (sol : List ℕ) (i w : ℕ) (hw : w ≠ i) :
    (flip_at sol i).getD w 0 = sol.getD w 0 := by
  simp [flip_at, List.getD, List.getElem?_set_ne (fun he => hw he.symm)]

theorem flip_at_getD_self (sol : List ℕ) (i : ℕ) (hi : i < sol.length) :
    (flip_at sol i).getD i 0 = 1 - sol.getD i 0 := by
  simp [flip_at, List.getD, List.getElem?_set_self, hi]

theorem foldl_pick {p : ℕ → Prop} [DecidablePred p] :
    ∀ (l : List ℕ) (a : ℕ),
      (l.foldl (fun acc j => if p j then j else acc) a = a ∧ ∀ j ∈ l, ¬ p j) ∨
      (p (l.foldl (fun acc j => if p j then j else acc) a) ∧
        l.foldl (fun acc j => if p j then j else acc) a ∈ l) := by
  intro l
  induction l with
  | nil => intro a; left; simp
  | cons x xs ih =>
      intro a
      by_cases hx : p x
      · rcases ih x with ⟨heq, hall⟩ | ⟨hp, hmem⟩
        · right
          constructor
          · simp only [List.foldl_cons, if_pos hx]; rw [heq]; exact hx
          · simp only [List.foldl_cons, if_pos hx]; rw [heq]; exact List.mem_cons_self x xs
        · right
          refine ⟨by simpa [hx] using hp, ?_⟩
          simp only [List.foldl_cons, if_pos hx]
          exact List.mem_cons_of_mem x hmem
      · rcases ih a with ⟨heq, hall⟩ | ⟨hp, hmem⟩
        · left
          refine ⟨by simpa [hx] using heq, ?_⟩
          intro j hj
          rcases List.mem_cons.mp hj with rfl | hj
          · exact hx
          · exact hall j hj
        · right
          refine ⟨by simpa [hx] using hp, ?_⟩
          simp only [List.foldl_cons, if_neg hx]
          exact List.mem_cons_of_mem x hmem

theorem clique_mutation_index_spec (clique : List ℕ) (i : ℕ) (h : i ∈ clique) :
    clique_mutation_index clique i < clique.length ∧
      clique.getD (clique_mutation_index clique i) 0 = i := by
  simp only [clique_mutation_index]
  rcases foldl_pick (p := fun j => clique.getD j 0 = i) (List.range clique.length).reverse 0 with
    ⟨heq, hall⟩ | ⟨hp, hmem⟩
  · exfalso
    obtain ⟨j, hj, hji⟩ := List.mem_iff_getElem.mp h
    apply hall j
    · simp [hj]
    · rw [getD_eq_getElem_of_lt clique 0 j hj]; exact hji
  · rw [List.mem_reverse, List.mem_range] at hmem
    exact ⟨hmem, hp⟩

theorem substring_index_flip_not_mem (sol clique : List ℕ) (i : ℕ) (h : i ∉ clique) :
    clique_substring_as_index (flip_at sol i) clique = clique_substring_as_index sol clique := by
  rw [clique_substring_as_index_eq_sum, clique_substring_as_index_eq_sum]
  apply Finset.sum_congr rfl
  intro j hj
  rw [Finset.mem_range] at hj
  have hmem : clique.getD j 0 ∈ clique := getD_mem_of_lt clique 0 j hj
  have hne : clique.getD j 0 ≠ i := fun he => h (he ▸ hmem)
  rw [flip_at_getD_ne sol i _ hne]

theorem substring_index_flip_mem (sol clique : List ℕ) (i : ℕ)
    (hmem : i ∈ clique) (hnodup : clique.Nodup)
    (hlen : ∀ v ∈ clique, v < sol.length)
    (hbits : ∀ x ∈ sol, x ≤ 1) :
    clique_substring_as_index (flip_at sol i) clique =
      (if sol.getD (clique.getD (clique_mutation_index clique i) 0) 0 = 0 then
        clique_substring_as_index sol clique
          + 1 <<< (clique.length - clique_mutation_index clique i - 1)
      else
        clique_substring_as_index sol clique
          - 1 <<< (clique.length - clique_mutation_index clique i - 1)) := by
  obtain ⟨hcmi_lt, hcmi_val⟩ := clique_mutation_index_spec clique i hmem
  set cmi := clique_mutation_index clique i with hcmi_def
  have hi_lt : i < sol.length := hlen i hmem
  -- each clique position other than cmi holds a variable different from i
  have hother : ∀ j, j < clique.length → j ≠ cmi → clique.getD j 0 ≠ i := by
    intro j hj hne he
    apply hne
    have h1 : clique[j] = clique[cmi] := by
      rw [← getD_eq_getElem_of_lt clique 0 j hj, ← getD_eq_getElem_of_lt clique 0 cmi hcmi_lt,
        he, hcmi_val]
    exact (List.Nodup.getElem_inj_iff hnodup).mp h1
  have hterm : ∀ j, j < clique.length → j ≠ cmi →
      (flip_at sol i).getD (clique.getD j 0) 0 = sol.getD (clique.getD j 0) 0 := by
    intro j hj hne
    exact flip_at_getD_ne sol i _ (hother j hj hne)
  -- split both sums at position cmi
  have hsplit : ∀ t : List ℕ,
      (∑ j ∈ Finset.range clique.length, t.getD (clique.getD j 0) 0 * 2 ^ (clique.length - j - 1))
        = t.getD (clique.getD cmi 0) 0 * 2 ^ (clique.length - cmi - 1)
          + ∑ j ∈ (Finset.range clique.length).erase cmi,
              t.getD (clique.getD j 0) 0 * 2 ^ (clique.length - j - 1) := by
    intro t
    rw [Finset.add_sum_erase (Finset.range clique.length)
      (fun j => t.getD (clique.getD j 0) 0 * 2 ^ (clique.length - j - 1))
      (Finset.mem_range.mpr hcmi_lt)]
  have hrest : ∑ j ∈ (Finset.range clique.length).erase cmi,
        (flip_at sol i).getD (clique.getD j 0) 0 * 2 ^ (clique.length - j - 1)
      = ∑ j ∈ (Finset.range clique.length).erase cmi,
        sol.getD (clique.getD j 0) 0 * 2 ^ (clique.length - j - 1) := by
    apply Finset.sum_congr rfl
    intro j hj
    have hj1 := Finset.mem_of_mem_erase hj
    rw [Finset.mem_range] at hj1
    rw [hterm j hj1 (Finset.ne_of_mem_erase hj)]
  have hflip_cmi : (flip_at sol i).getD (clique.getD cmi 0) 0 = 1 - sol.getD (clique.getD cmi 0) 0 := by
    rw [hcmi_val]
    exact flip_at_getD_self sol i hi_lt
  have hs_le : sol.getD (clique.getD cmi 0) 0 ≤ 1 := by
    rw [hcmi_val]
    exact hbits _ (getD_mem_of_lt sol 0 i hi_lt)
  rw [clique_substring_as_index_eq_sum, clique_substring_as_index_eq_sum, hsplit, hsplit,
    hrest, hflip_cmi, Nat.one_shiftLeft]
  by_cases hzero : sol.getD (clique.getD cmi 0) 0 = 0
  · rw [if_pos hzero, hzero]
    omega
  · rw [if_neg hzero]
    have : sol.getD (clique.getD cmi 0) 0 = 1 := by omega
    rw [this]
    omega

/-! ## Claim C6: incremental fitness consistency -/

/-- C6: for a clique tree whose cliques consist of distinct variable indices inside the
solution, and a 0/1 solution whose fitness was computed from scratch,
calculate_fitness_delta at any flip index returns exactly calculate_fitness of the
solution with that one bit flipped. -/
theorem c6_delta_matches_full_evaluation (ct : CliqueTree) (solution : List ℕ)
    (index_mutation : ℕ)
    (hnodup : ∀ c ∈ ct.cliques, c.Nodup)
    (hbits : ∀ x ∈ solution, x ≤ 1)
    (hvars : ∀ c ∈ ct.cliques, ∀ v ∈ c, v < solution.length) :
    ct.calculate_fitness_delta ⟨solution, ct.calculate_fitness solution⟩ index_mutation
      = ct.calculate_fitness (flip_at solution index_mutation) := by
  classical
  set M := ct.cliques.length with hM
  set clq := fun ci => ct.cliques.getD ci [] with hclq
  set tbl := fun ci => ct.codomain_values.getD ci [] with htbl
  set oldf := fun ci => (tbl ci).getD (clique_substring_as_index solution (clq ci)) 0 with holdf
  set newf := fun ci =>
      (tbl ci).getD (clique_substring_as_index (flip_at solution index_mutation) (clq ci)) 0
    with hnewf
  set g := fun ci => if index_mutation ∈ clq ci then newf ci - oldf ci else 0 with hg
  have hclq_mem : ∀ ci, ci < M → clq ci ∈ ct.cliques := by
    intro ci hci
    exact getD_mem_of_lt ct.cliques [] ci hci
  -- for every clique the new table index is the one the delta loop computes
  have hidx : ∀ ci, ci < M →
      clique_substring_as_index (flip_at solution index_mutation) (clq ci)
        = (if index_mutation ∈ clq ci then
            (if solution.getD ((clq ci).getD (clique_mutation_index (clq ci) index_mutation) 0) 0 = 0
              then clique_substring_as_index solution (clq ci)
                + 1 <<< ((clq ci).length - clique_mutation_index (clq ci) index_mutation - 1)
              else clique_substring_as_index solution (clq ci)
                - 1 <<< ((clq ci).length - clique_mutation_index (clq ci) index_mutation - 1))
          else clique_substring_as_index solution (clq ci)) := by
    intro ci hci
    by_cases hm : index_mutation ∈ clq ci
    · rw [if_pos hm]
      exact substring_index_flip_mem solution (clq ci) index_mutation hm
        (hnodup _ (hclq_mem ci hci)) (hvars _ (hclq_mem ci hci)) hbits
    · rw [if_neg hm]
      exact substring_index_flip_not_mem solution (clq ci) index_mutation hm
  -- the delta fold is the original fitness plus the sum of the per-clique corrections
  have hdelta :
      ct.calculate_fitness_delta ⟨solution, ct.calculate_fitness solution⟩ index_mutation
        = ct.calculate_fitness solution + ∑ ci ∈ Finset.range M, g ci := by
    rw [CliqueTree.calculate_fitness_delta]
    have hstep :
        (fun (fitness : ℚ) (clique_index : ℕ) =>
          let clique := ct.cliques.getD clique_index []
          if index_mutation ∈ clique then
            let cidx := clique_substring_as_index solution clique
            let cmi := clique_mutation_index clique index_mutation
            let fitness1 := fitness - (ct.codomain_values.getD clique_index []).getD cidx 0
            let cidx2 :=
              if solution.getD (clique.getD cmi 0) 0 = 0 then
                cidx + 1 <<< (clique.length - cmi - 1)
              else
                cidx - 1 <<< (clique.length - cmi - 1)
            fitness1 + (ct.codomain_values.getD clique_index []).getD cidx2 0
          else fitness)
        = (fun fitness ci => fitness + g ci) := by
      funext fitness ci
      by_cases hm : index_mutation ∈ ct.cliques.getD ci []
      · simp only [hm, if_true, hg, hclq, htbl, hnewf, holdf]
        by_cases hci : ci < M
        · rw [hidx ci hci, if_pos hm]
          by_cases hzero :
              solution.getD ((ct.cliques.getD ci []).getD
                (clique_mutation_index (ct.cliques.getD ci []) index_mutation) 0) 0 = 0
          · rw [if_pos hzero]; ring
          · rw [if_neg hzero]; ring
        · -- out of range: the default clique is [], which contains nothing
          exfalso
          rw [hM] at hci
          rw [List.getD_eq_getElem?_getD, List.getElem?_eq_none (by omega)] at hm
          simp at hm
      · simp only [hm, if_false, hg, hclq]
        ring
    rw [hstep]
    have := foldl_add_eq_sum (M := ℚ) g (List.range M) (ct.calculate_fitness solution)
    simp only [hM] at this ⊢
    rw [this, list_sum_range_map]
  -- the recomputed fitness splits the same way
  have hfull : ct.calculate_fitness (flip_at solution index_mutation)
      = ct.calculate_fitness solution + ∑ ci ∈ Finset.range M, g ci := by
    rw [CliqueTree.calculate_fitness, CliqueTree.calculate_fitness]
    rw [foldl_add_eq_sum, foldl_add_eq_sum, list_sum_range_map, list_sum_range_map]
    rw [zero_add, zero_add, ← Finset.sum_add_distrib]
    apply Finset.sum_congr rfl
    intro ci hci
    rw [Finset.mem_range] at hci
    by_cases hm : index_mutation ∈ clq ci
    · have h1 : (ct.codomain_values.getD ci []).getD
          (clique_substring_as_index (flip_at solution index_mutation) (ct.cliques.getD ci [])) 0
          = newf ci := by rw [hnewf, htbl, hclq]
      rw [h1, hg]
      simp only [hm, if_true]
      have h2 : (ct.codomain_values.getD ci []).getD
          (clique_substring_as_index solution (ct.cliques.getD ci [])) 0 = oldf ci := by
        rw [holdf, htbl, hclq]
      rw [h2]
      ring
    · have h1 : clique_substring_as_index (flip_at solution index_mutation) (ct.cliques.getD ci [])
          = clique_substring_as_index solution (ct.cliques.getD ci []) := by
        have := hidx ci hci
        rw [if_neg hm] at this
        exact this
      rw [h1, hg]
      simp only [hm, if_false]
      ring
  rw [hdelta, hfull]

def c6_tree : CliqueTree :=
  ⟨⟨2, 2, 1, 1⟩, CodomainFunction.Unknown, [[0, 1], [1, 2]],
    [[1, 2, 3, 4], [5, 6, 7, 8]], [], 0⟩

theorem c6_witness :
    CliqueTree.calculate_fitness_delta c6_tree
        ⟨[1, 0, 1], CliqueTree.calculate_fitness c6_tree [1, 0, 1]⟩ 1
      = CliqueTree.calculate_fitness c6_tree (flip_at [1, 0, 1] 1) :=
  c6_delta_matches_full_evaluation c6_tree [1, 0, 1] 1 (by decide) (by decide) (by decide)

/-! ## Parameter acceptance (clique_tree.rs, lines 37-88, and codomain_subclasses.rs,
lines 73-93)

Rust strings are modelled as lists of characters. str::parse to u32 is modelled by
parse_u32: a non-empty all-digit token whose value fits in 32 bits parses to its
value, everything else fails. (The Rust parser additionally accepts a leading plus
sign, which no claim depends on.) The error type of the Rust Result values is kept
as the error-message string.
-/

def parse_u32 (s : List Char) : Option ℕ :=
  if s = [] then none
  else if s.all Char.isDigit then
    let n := s.foldl (fun acc c => acc * 10 + (c.toNat - 48)) 0
    if n < 4294967296 then some n else none
  else none

def parse_u32_or (s : List Char) (msg : String) : Except String ℕ :=
  match parse_u32 s with
  | some n => Except.ok n
  | none => Except.error msg

def InputParameters.new (args : List (List Char)) : Except String InputParameters :=
  if args.length < 5 then Except.error "not enough arguments"
  else do
    let m ← parse_u32_or (args.getD 1 []) "Could not parse M to u32"
    let k ← parse_u32_or (args.getD 2 []) "Could not parse k to u32"
    let o ← parse_u32_or (args.getD 3 []) "Could not parse o to u32"
    let b ← parse_u32_or (args.getD 4 []) "Could not parse b to u32"
    pure ⟨m, k, o, b⟩

def InputParameters.from_line_iterator (content_iterator : List (List Char)) :
    Except String InputParameters :=
  match content_iterator with
  | [] => Except.error "Input file does not contain enough entries"
  | line :: _ =>
    let parameters := line.splitOn ' '
    if parameters.length ≠ 4 then
      Except.error "not enough input parameters on first line of input file"
    else do
      let m ← parse_u32_or (parameters.getD 0 []) "invalid digit found in string"
      let k ← parse_u32_or (parameters.getD 1 []) "invalid digit found in string"
      let o ← parse_u32_or (parameters.getD 2 []) "invalid digit found in string"
      let b ← parse_u32_or (parameters.getD 3 []) "invalid digit found in string"
      pure ⟨m, k, o, b⟩

/-- Random codomain generation, with the uniform 0..1 draws supplied row-major by the
oracle die. The Rust function asserts k < 32 before generating anything; the assert
aborts the process rather than returning a structured error, modelled by none. -/
def generate_random (input_parameters : InputParameters) (die : ℕ → ℚ) :
    Option (List (List ℚ)) :=
  if input_parameters.k < 32 then
    some ((List.range input_parameters.m).map (fun i =>
      (List.range (2 ^ input_parameters.k)).map (fun j =>
        die (i * 2 ^ input_parameters.k + j))))
  else none

/-! ## Claim C9: which invalid parameters are rejected -/

/-- C9 counterexample: a k value of 40 (at least 32) and an o value no smaller than k
are both accepted by InputParameters.new without any error, so the parameter-accepting
operations do not report a structured error for them before construction proceeds. -/
theorem c9_counterexample_invalid_parameters_accepted :
    InputParameters.new
        ["problem_generator".data, "1".data, "40".data, "0".data, "1".data]
      = Except.ok ⟨1, 40, 0, 1⟩ ∧
    InputParameters.new
        ["problem_generator".data, "2".data, "3".data, "5".data, "1".data]
      = Except.ok ⟨2, 3, 5, 1⟩ := by
  constructor
  · rfl
  · rfl

/-- C9 (amended): the parameter-accepting operations report a structured error for a
short argument list and for a first line with a token count other than four, before
any construction; but parameters with k at least 32 or with o at least k are accepted
by the parsers without error. A k of at least 32 only aborts later, inside codomain
generation, via an assertion rather than a structured error, and o at least k is
never validated. -/
theorem c9_parameter_error_reporting :
    (∀ args : List (List Char), args.length < 5 →
      InputParameters.new args = Except.error "not enough arguments") ∧
    (InputParameters.from_line_iterator []
      = Except.error "Input file does not contain enough entries") ∧
    (∀ line rest, (line.splitOn ' ').length ≠ 4 →
      InputParameters.from_line_iterator (line :: rest)
        = Except.error "not enough input parameters on first line of input file") ∧
    (∀ (ip : InputParameters) (die : ℕ → ℚ), 32 ≤ ip.k → generate_random ip die = none) ∧
    (InputParameters.new ["p".data, "1".data, "40".data, "0".data, "1".data]
      = Except.ok ⟨1, 40, 0, 1⟩) ∧
    (InputParameters.new ["p".data, "2".data, "3".data, "5".data, "1".data]
      = Except.ok ⟨2, 3, 5, 1⟩) := by
  refine ⟨?_, rfl, ?_, ?_, rfl, rfl⟩
  · intro args h
    simp [InputParameters.new, h]
  · intro line rest h
    simp only [InputParameters.from_line_iterator]
    rw [if_pos h]
  · intro ip die h
    simp only [generate_random]
    rw [if_neg (by omega)]

theorem c9_witness :
    InputParameters.new [] = Except.error "not enough arguments" :=
  c9_parameter_error_reporting.1 [] (by decide)

/-! ## Clique tree construction (clique_tree.rs, lines 639-729)

The shuffled variable-index vector is the parameter indices (the Rust code draws it
by shuffling 0..n). Each child creation shuffles a copy of the parent clique; the
oracle shuffles receives the running clique count (the index the new child will get)
and the parent clique and returns the shuffled copy.

The Rust inner loop breaks out of the j loop once (i*b)+j reaches m-1; because
i*b+j is strictly increasing along the iteration order, skipping every iteration
with i*b+j at or beyond m-1 is equivalent, and the fold below skips.
-/

def construct_step (input_parameters : InputParameters) (indices : List ℕ)
    (shuffles : ℕ → List ℕ → List ℕ) (b : ℕ)
    (state : List (List ℕ) × List (List ℕ) × ℕ) (ij : ℕ × ℕ) :
    List (List ℕ) × List (List ℕ) × ℕ :=
  if ij.1 * b + ij.2 ≥ input_parameters.m - 1 then state
  else
    let cliques := state.1
    let count := state.2.2
    let clique_copy := shuffles count (cliques.getD ij.1 [])
    let new_separator :=
      (List.range input_parameters.o).map (fun k0 => clique_copy.getD k0 0)
    let start_index :=
      (count - 1) * (input_parameters.k - input_parameters.o) + input_parameters.k
    let variables_to_add :=
      (List.range (input_parameters.k - input_parameters.o)).map
        (fun k0 => indices.getD (start_index + k0) 0)
    let new_clique := new_separator ++ variables_to_add
    (cliques ++ [new_clique], state.2.1 ++ [new_separator], count + 1)

/-- Effective branching factor of the construction: the Rust code sets b to 1 when
o = 0 and to the input b otherwise. -/
def branch_eff (input_parameters : InputParameters) : ℕ :=
  if input_parameters.o = 0 then 1 else input_parameters.b

def CliqueTree.construct (input_parameters : InputParameters) (indices : List ℕ)
    (shuffles : ℕ → List ℕ → List ℕ) : List (List ℕ) × List (List ℕ) :=
  let clique0 := (List.range input_parameters.k).map (fun i => indices.getD i 0)
  let b := branch_eff input_parameters
  let division :=
    (input_parameters.m - 1) / b + (if (input_parameters.m - 1) % b > 0 then 1 else 0)
  let final :=
    ((List.range division).flatMap (fun i => (List.range b).map (fun j => (i, j)))).foldl
      (construct_step input_parameters indices shuffles b) ([clique0], [[]], 1)
  (final.1, final.2.1)

/-- Closed form of the cliques the construction produces. Child c+1 is created from
parent c / branch_eff; the first argument is recursion fuel, sufficient whenever it
is at least the clique index. -/
def constructed_clique_aux (input_parameters : InputParameters) (indices : List ℕ)
    (shuffles : ℕ → List ℕ → List ℕ) : ℕ → ℕ → List ℕ
  | _, 0 => (List.range input_parameters.k).map (fun i => indices.getD i 0)
  | 0, _ + 1 => []
  | fuel + 1, c + 1 =>
      let parent := constructed_clique_aux input_parameters indices shuffles fuel
        (c / branch_eff input_parameters)
      let sep := (List.range input_parameters.o).map
        (fun k0 => (shuffles (c + 1) parent).getD k0 0)
      sep ++ (List.range (input_parameters.k - input_parameters.o)).map
        (fun k0 => indices.getD
          (c * (input_parameters.k - input_parameters.o) + input_parameters.k + k0) 0)

def constructed_clique (input_parameters : InputParameters) (indices : List ℕ)
    (shuffles : ℕ → List ℕ → List ℕ) (c : ℕ) : List ℕ :=
  constructed_clique_aux input_parameters indices shuffles c c

def constructed_separator (input_parameters : InputParameters) (indices : List ℕ)
    (shuffles : ℕ → List ℕ → List ℕ) : ℕ → List ℕ
  | 0 => []
  | c + 1 => (List.range input_parameters.o).map
      (fun k0 => (shuffles (c + 1)
        (constructed_clique input_parameters indices shuffles
          (c / branch_eff input_parameters))).getD k0 0)

theorem constructed_clique_aux_stable (input_parameters : InputParameters)
    (indices : List ℕ) (shuffles : ℕ → List ℕ → List ℕ) :
    ∀ c fuel1 fuel2, c ≤ fuel1 → c ≤ fuel2 →
      constructed_clique_aux input_parameters indices shuffles fuel1 c
        = constructed_clique_aux input_parameters indices shuffles fuel2 c := by
  intro c
  induction c using Nat.strong_induction_on with
  | _ c ih =>
      intro fuel1 fuel2 h1 h2
      match c, fuel1, fuel2 with
      | 0, _, _ => simp [constructed_clique_aux]
      | c + 1, fuel1 + 1, fuel2 + 1 =>
          have hc : c / branch_eff input_parameters < c + 1 :=
            Nat.lt_succ_of_le (Nat.div_le_self c (branch_eff input_parameters))
          have hr1 : c / branch_eff input_parameters ≤ fuel1 :=
            le_trans (Nat.div_le_self c _) (Nat.succ_le_succ_iff.mp h1)
          have hr2 : c / branch_eff input_parameters ≤ fuel2 :=
            le_trans (Nat.div_le_self c _) (Nat.succ_le_succ_iff.mp h2)
          simp only [constructed_clique_aux]
          rw [ih (c / branch_eff input_parameters) hc fuel1 fuel2 hr1 hr2]

theorem constructed_clique_succ (input_parameters : InputParameters) (indices : List ℕ)
    (shuffles : ℕ → List ℕ → List ℕ) (c : ℕ) :
    constructed_clique input_parameters indices shuffles (c + 1)
      = constructed_separator input_parameters indices shuffles (c + 1)
        ++ (List.range (input_parameters.k - input_parameters.o)).map
             (fun k0 => indices.getD
               (c * (input_parameters.k - input_parameters.o) + input_parameters.k + k0) 0) := by
  simp only [constructed_clique, constructed_clique_aux, constructed_separator]
  rw [constructed_clique_aux_stable input_parameters indices shuffles
    (c / branch_eff input_parameters) c (c / branch_eff input_parameters)
    (Nat.div_le_self c _) (le_refl _)]

theorem getD_map_range {α : Type} (f : ℕ → α) (n i : ℕ) (d : α) (h : i < n) :
    ((List.range n).map f).getD i d = f i := by
  simp [List.getD_eq_getElem?_getD, List.getElem?_map, List.getElem?_range, h]

theorem pair_enum (d b : ℕ) (hb : 1 ≤ b) :
    (List.range d).flatMap (fun i => (List.range b).map (fun j => (i, j)))
      = (List.range (d * b)).map (fun t => (t / b, t % b)) := by
  induction d with
  | zero => simp
  | succ d ih =>
      rw [List.range_succ, List.flatMap_append, ih, Nat.succ_mul, List.range_add,
        List.map_append]
      congr 1
      · simp only [List.flatMap_cons, List.flatMap_nil, List.append_nil, List.map_map]
        apply List.map_congr_left
        intro j hj
        rw [List.mem_range] at hj
        have h1 : (d * b + j) / b = d := by
          rw [Nat.mul_comm d b, Nat.add_comm, Nat.add_mul_div_left j d (by omega : 0 < b),
            Nat.div_eq_of_lt hj, Nat.zero_add]
        have h2 : (d * b + j) % b = j := by
          rw [Nat.mul_comm d b, Nat.mul_add_mod, Nat.mod_eq_of_lt hj]
        simp [h1, h2]

theorem construct_fold_state (ip : InputParameters) (indices : List ℕ)
    (shuffles : ℕ → List ℕ → List ℕ) (hbe : 1 ≤ branch_eff ip) :
    ∀ t : ℕ,
      ((List.range t).map
          (fun u => (u / branch_eff ip, u % branch_eff ip))).foldl
          (construct_step ip indices shuffles (branch_eff ip))
          ([(List.range ip.k).map (fun i => indices.getD i 0)], [([] : List ℕ)], 1)
        = ((List.range (min t (ip.m - 1) + 1)).map (constructed_clique ip indices shuffles),
           (List.range (min t (ip.m - 1) + 1)).map (constructed_separator ip indices shuffles),
           min t (ip.m - 1) + 1) := by
  intro t
  induction t with
  | zero =>
      simp [constructed_clique, constructed_clique_aux, constructed_separator, List.range_succ]
  | succ t ih =>
      rw [List.range_succ, List.map_append, List.foldl_append, ih]
      simp only [List.map_cons, List.map_nil, List.foldl_cons, List.foldl_nil]
      have hkey : t / branch_eff ip * branch_eff ip + t % branch_eff ip = t := by
        rw [Nat.mul_comm]
        exact Nat.div_add_mod t (branch_eff ip)
      by_cases hlt : t < ip.m - 1
      · have hmin_t : min t (ip.m - 1) = t := by omega
        have hmin_t1 : min (t + 1) (ip.m - 1) = t + 1 := by omega
        rw [hmin_t, hmin_t1]
        simp only [construct_step]
        rw [if_neg (by omega)]
        have hparent : ((List.range (t + 1)).map
            (constructed_clique ip indices shuffles)).getD (t / branch_eff ip) []
            = constructed_clique ip indices shuffles (t / branch_eff ip) := by
          apply getD_map_range
          have := Nat.div_le_self t (branch_eff ip)
          omega
        simp only [hparent, Nat.add_sub_cancel]
        rw [List.range_succ (n := t + 1), List.map_append, List.map_append]
        simp only [List.map_cons, List.map_nil]
        refine congrArg₂ Prod.mk ?_ (congrArg₂ Prod.mk ?_ rfl)
        · rw [constructed_clique_succ]
          simp only [constructed_separator]
        · simp only [constructed_separator]
      · have hge : min t (ip.m - 1) = ip.m - 1 := by omega
        have hge1 : min (t + 1) (ip.m - 1) = ip.m - 1 := by omega
        rw [hge, hge1]
        simp only [construct_step]
        rw [if_pos (by omega)]

theorem division_mul_ge (m b : ℕ) (hb : 1 ≤ b) :
    m - 1 ≤ ((m - 1) / b + if (m - 1) % b > 0 then 1 else 0) * b := by
  have hqr : b * ((m - 1) / b) + (m - 1) % b = m - 1 := Nat.div_add_mod (m - 1) b
  have hrb : (m - 1) % b < b := Nat.mod_lt _ (by omega)
  by_cases hr : (m - 1) % b > 0
  · rw [if_pos hr, Nat.add_mul, Nat.one_mul, Nat.mul_comm]
    omega
  · rw [if_neg hr, Nat.add_mul, Nat.zero_mul, Nat.mul_comm]
    omega

theorem construct_eq_closed (ip : InputParameters) (indices : List ℕ)
    (shuffles : ℕ → List ℕ → List ℕ) (hm : 1 ≤ ip.m) (hb : 1 ≤ ip.b) :
    CliqueTree.construct ip indices shuffles
      = ((List.range ip.m).map (constructed_clique ip indices shuffles),
         (List.range ip.m).map (constructed_separator ip indices shuffles)) := by
  have hbe : 1 ≤ branch_eff ip := by
    unfold branch_eff
    split <;> omega
  simp only [CliqueTree.construct]
  rw [pair_enum _ _ hbe, construct_fold_state ip indices shuffles hbe]
  have hmin : min
      (((ip.m - 1) / branch_eff ip + if (ip.m - 1) % branch_eff ip > 0 then 1 else 0)
        * branch_eff ip) (ip.m - 1) = ip.m - 1 :=
    Nat.min_eq_right (division_mul_ge ip.m (branch_eff ip) hbe)
  rw [hmin]
  have hm1 : ip.m - 1 + 1 = ip.m := by omega
  rw [hm1]

theorem map_getD_range_eq_take (l : List ℕ) (t : ℕ) (h : t ≤ l.length) :
    (List.range t).map (fun k0 => l.getD k0 0) = l.take t := by
  apply List.ext_getElem
  · simp
    omega
  · intro i h1 h2
    simp only [List.getElem_map, List.getElem_range, List.getElem_take]
    rw [List.length_map, List.length_range] at h1
    exact getD_eq_getElem_of_lt l 0 i (by omega)

theorem map_getD_range_eq_drop_take (l : List ℕ) (s t : ℕ) (h : s + t ≤ l.length) :
    (List.range t).map (fun k0 => l.getD (s + k0) 0) = (l.drop s).take t := by
  apply List.ext_getElem
  · simp
    omega
  · intro i h1 h2
    simp only [List.getElem_map, List.getElem_range, List.getElem_take, List.getElem_drop]
    rw [List.length_map, List.length_range] at h1
    rw [getD_eq_getElem_of_lt l 0 (s + i) (by omega)]

theorem constructed_clique_length (ip : InputParameters) (indices : List ℕ)
    (shuffles : ℕ → List ℕ → List ℕ) (ho : ip.o ≤ ip.k) :
    ∀ c, (constructed_clique ip indices shuffles c).length = ip.k := by
  intro c
  cases c with
  | zero => simp [constructed_clique, constructed_clique_aux]
  | succ c =>
      rw [constructed_clique_succ]
      simp [constructed_separator]
      omega

theorem constructed_separator_mem_parent (ip : InputParameters) (indices : List ℕ)
    (shuffles : ℕ → List ℕ → List ℕ)
    (ho : ip.o ≤ ip.k) (hshuffle : ∀ c l, List.Perm (shuffles c l) l) (c : ℕ) :
    ∀ v ∈ constructed_separator ip indices shuffles (c + 1),
      v ∈ constructed_clique ip indices shuffles (c / branch_eff ip) := by
  intro v hv
  simp only [constructed_separator, List.mem_map, List.mem_range] at hv
  obtain ⟨k0, hk0, rfl⟩ := hv
  have hlen : (shuffles (c + 1)
      (constructed_clique ip indices shuffles (c / branch_eff ip))).length
      = (constructed_clique ip indices shuffles (c / branch_eff ip)).length :=
    (hshuffle _ _).length_eq
  have hk' : k0 < (shuffles (c + 1)
      (constructed_clique ip indices shuffles (c / branch_eff ip))).length := by
    rw [hlen, constructed_clique_length ip indices shuffles ho]
    omega
  exact (hshuffle (c + 1) _).mem_iff.mp (getD_mem_of_lt _ 0 k0 hk')

/-! ## Claim C4: structure of the constructed clique tree -/

/-- C4: for valid parameters, any drawn permutation of the n variable indices and any
shuffle oracle, construct returns m cliques and m separators; clique 0 is the first k
permuted indices with an empty separator; every later clique c is created by the
parent (c-1)/b visited in construction order, its separator is the first o entries of
a shuffled copy of that parent clique (hence o indices drawn from the parent clique),
and its variable list is that separator followed by the next k-o still-unused
permuted indices. The division of children among parents means child c hangs off
parent (c-1)/b, which encodes that each parent receives children until b children
exist or all m-1 non-root cliques are created. -/
theorem c4_construct_characterization (ip : InputParameters) (indices : List ℕ)
    (shuffles : ℕ → List ℕ → List ℕ)
    (hm : 1 ≤ ip.m) (hk : 1 ≤ ip.k) (hk32 : ip.k < 32) (ho : ip.o < ip.k) (hb : 1 ≤ ip.b)
    (hlen : indices.length = (ip.m - 1) * (ip.k - ip.o) + ip.k)
    (hshuffle : ∀ c l, List.Perm (shuffles c l) l) :
    ((CliqueTree.construct ip indices shuffles).1.length = ip.m) ∧
    ((CliqueTree.construct ip indices shuffles).2.length = ip.m) ∧
    ((CliqueTree.construct ip indices shuffles).1.getD 0 [] = indices.take ip.k) ∧
    ((CliqueTree.construct ip indices shuffles).2.getD 0 [] = []) ∧
    (∀ c, 1 ≤ c → c < ip.m →
      ((CliqueTree.construct ip indices shuffles).2.getD c []
          = (shuffles c
              ((CliqueTree.construct ip indices shuffles).1.getD ((c - 1) / ip.b) [])).take
              ip.o) ∧
      (∀ v ∈ (CliqueTree.construct ip indices shuffles).2.getD c [],
          v ∈ (CliqueTree.construct ip indices shuffles).1.getD ((c - 1) / ip.b) []) ∧
      ((CliqueTree.construct ip indices shuffles).1.getD c []
          = (CliqueTree.construct ip indices shuffles).2.getD c []
            ++ ((indices.drop ((c - 1) * (ip.k - ip.o) + ip.k)).take (ip.k - ip.o)))) := by
  have hclosed := construct_eq_closed ip indices shuffles hm hb
  rw [hclosed]
  have hdivlt : ∀ c : ℕ, c < ip.m → (c - 1) / ip.b < ip.m := by
    intro c hc
    have := Nat.div_le_self (c - 1) ip.b
    omega
  refine ⟨by simp, by simp, ?_, ?_, ?_⟩
  · rw [getD_map_range _ _ _ _ (by omega)]
    simp only [constructed_clique, constructed_clique_aux]
    apply map_getD_range_eq_take
    omega
  · rw [getD_map_range _ _ _ _ (by omega)]
    rfl
  · intro c hc1 hcm
    obtain ⟨c', rfl⟩ : ∃ c', c = c' + 1 := ⟨c - 1, by omega⟩
    simp only [Nat.add_sub_cancel]
    have hparent_lt : c' / ip.b < ip.m := by
      have := Nat.div_le_self c' ip.b
      omega
    have hsep_eq : ((List.range ip.m).map (constructed_separator ip indices shuffles)).getD
          (c' + 1) [] = constructed_separator ip indices shuffles (c' + 1) :=
      getD_map_range _ _ _ _ hcm
    have hcl_eq : ((List.range ip.m).map (constructed_clique ip indices shuffles)).getD
          (c' + 1) [] = constructed_clique ip indices shuffles (c' + 1) :=
      getD_map_range _ _ _ _ hcm
    have hpar_eq : ((List.range ip.m).map (constructed_clique ip indices shuffles)).getD
          (c' / ip.b) [] = constructed_clique ip indices shuffles (c' / ip.b) :=
      getD_map_range _ _ _ _ hparent_lt
    rw [hsep_eq, hcl_eq, hpar_eq]
    have hbound : c' * (ip.k - ip.o) + ip.k + (ip.k - ip.o) ≤ indices.length := by
      have hc'm : c' + 1 ≤ ip.m - 1 := by omega
      have hmul := Nat.mul_le_mul_right (ip.k - ip.o) hc'm
      have heq : c' * (ip.k - ip.o) + ip.k + (ip.k - ip.o)
          = (c' + 1) * (ip.k - ip.o) + ip.k := by ring
      rw [hlen]
      omega
    refine ⟨?_, ?_, ?_⟩
    · by_cases ho0 : ip.o = 0
      · have hs0 : constructed_separator ip indices shuffles (c' + 1) = [] := by
          simp [constructed_separator, ho0]
        rw [hs0, ho0, List.take_zero]
      · have hbe : branch_eff ip = ip.b := by simp [branch_eff, ho0]
        have hpl : (shuffles (c' + 1)
            (constructed_clique ip indices shuffles (c' / ip.b))).length = ip.k := by
          rw [(hshuffle _ _).length_eq,
            constructed_clique_length ip indices shuffles (by omega)]
        simp only [constructed_separator, hbe]
        rw [← map_getD_range_eq_take _ _ (by rw [hpl]; omega)]
    · by_cases ho0 : ip.o = 0
      · have hs0 : constructed_separator ip indices shuffles (c' + 1) = [] := by
          simp [constructed_separator, ho0]
        rw [hs0]
        intro v hv
        simp at hv
      · have hbe : branch_eff ip = ip.b := by simp [branch_eff, ho0]
        intro v hv
        have h1 := constructed_separator_mem_parent ip indices shuffles (by omega) hshuffle c' v hv
        rw [hbe] at h1
        exact h1
    · rw [constructed_clique_succ]
      congr 1
      exact map_getD_range_eq_drop_take indices (c' * (ip.k - ip.o) + ip.k) (ip.k - ip.o) hbound

theorem c4_witness :
    (CliqueTree.construct ⟨3, 2, 1, 2⟩ [0, 1, 2, 3] (fun _ l => l)).1.length = 3 :=
  (c4_construct_characterization ⟨3, 2, 1, 2⟩ [0, 1, 2, 3] (fun _ l => l)
    (by decide) (by decide) (by decide) (by decide) (by decide) (by decide)
    (fun _ l => List.Perm.refl l)).1

/-! ## Claim C10: the o = 0 case degenerates into an independent forest -/

theorem constructed_clique_o_zero (ip : InputParameters) (indices : List ℕ)
    (shuffles : ℕ → List ℕ → List ℕ) (ho : ip.o = 0) :
    ∀ c, constructed_clique ip indices shuffles c
      = (List.range ip.k).map (fun k0 => indices.getD (c * ip.k + k0) 0) := by
  intro c
  cases c with
  | zero => simp [constructed_clique, constructed_clique_aux]
  | succ c =>
      rw [constructed_clique_succ]
      have hs0 : constructed_separator ip indices shuffles (c + 1) = [] := by
        simp [constructed_separator, ho]
      rw [hs0, List.nil_append, ho]
      simp only [Nat.sub_zero]
      apply List.map_congr_left
      intro k0 hk0
      congr 1
      ring

theorem flatten_blocks (l : List ℕ) (k : ℕ) :
    ∀ q, ((List.range q).map (fun c => (l.drop (c * k)).take k)).flatten = l.take (q * k) := by
  intro q
  induction q with
  | zero => simp
  | succ q ih =>
      rw [List.range_succ, List.map_append, List.flatten_append]
      simp only [List.map_cons, List.map_nil, List.flatten_cons, List.flatten_nil,
        List.append_nil]
      rw [ih, Nat.succ_mul, List.take_add]

/-- C10: for o = 0, construct produces the same output as with b set to 1: m cliques
of exactly k variables each, all m separators empty, the cliques pairwise disjoint,
and their variables together a permutation of 0 .. m*k-1, so the landscape is a
direct sum of m independent subfunctions. -/
theorem c10_o_zero_independent_forest (ip : InputParameters) (indices : List ℕ)
    (shuffles : ℕ → List ℕ → List ℕ)
    (hm : 1 ≤ ip.m) (hk : 1 ≤ ip.k) (ho : ip.o = 0) (hb : 1 ≤ ip.b)
    (hperm : List.Perm indices (List.range (ip.m * ip.k))) :
    (CliqueTree.construct ip indices shuffles
        = CliqueTree.construct ⟨ip.m, ip.k, ip.o, 1⟩ indices shuffles) ∧
    ((CliqueTree.construct ip indices shuffles).1.length = ip.m) ∧
    (∀ cl ∈ (CliqueTree.construct ip indices shuffles).1, cl.length = ip.k) ∧
    ((CliqueTree.construct ip indices shuffles).2 = List.replicate ip.m []) ∧
    (∀ i j, i < ip.m → j < ip.m → i ≠ j →
      ∀ v ∈ (CliqueTree.construct ip indices shuffles).1.getD i [],
        v ∉ (CliqueTree.construct ip indices shuffles).1.getD j []) ∧
    List.Perm (CliqueTree.construct ip indices shuffles).1.flatten
      (List.range (ip.m * ip.k)) := by
  have hlen : indices.length = ip.m * ip.k := by
    rw [hperm.length_eq, List.length_range]
  have hclosed := construct_eq_closed ip indices shuffles hm hb
  have hnodup : indices.Nodup := hperm.nodup_iff.mpr (List.nodup_range (ip.m * ip.k))
  have hslice : ∀ c, c < ip.m → constructed_clique ip indices shuffles c
      = (indices.drop (c * ip.k)).take ip.k := by
    intro c hc
    rw [constructed_clique_o_zero ip indices shuffles ho c]
    apply map_getD_range_eq_drop_take
    have h2 := Nat.mul_le_mul_right ip.k (show c + 1 ≤ ip.m by omega)
    have h3 : c * ip.k + ip.k = (c + 1) * ip.k := by ring
    omega
  have hcl_list : (CliqueTree.construct ip indices shuffles).1
      = (List.range ip.m).map (fun c => (indices.drop (c * ip.k)).take ip.k) := by
    rw [hclosed]
    apply List.map_congr_left
    intro c hc
    rw [List.mem_range] at hc
    exact hslice c hc
  have hflat : (CliqueTree.construct ip indices shuffles).1.flatten = indices := by
    rw [hcl_list, flatten_blocks, ← hlen, List.take_length]
  -- membership of a clique element pins down its position in indices
  have hmem_slice : ∀ c, c < ip.m → ∀ v ∈ (CliqueTree.construct ip indices shuffles).1.getD c [],
      ∃ a, a < ip.k ∧ c * ip.k + a < indices.length ∧
        ∀ h : c * ip.k + a < indices.length, indices[c * ip.k + a] = v := by
    intro c hc v hv
    rw [hcl_list, getD_map_range _ _ _ _ hc] at hv
    obtain ⟨pos, hpos, hval⟩ := List.mem_iff_getElem.mp hv
    have hlt : pos < ip.k := by
      have := hpos
      simp at this
      omega
    have hbound : c * ip.k + pos < indices.length := by
      have h2 := Nat.mul_le_mul_right ip.k (show c + 1 ≤ ip.m by omega)
      have h3 : c * ip.k + ip.k = (c + 1) * ip.k := by ring
      omega
    refine ⟨pos, hlt, hbound, ?_⟩
    intro h
    rw [← hval]
    simp [List.getElem_take, List.getElem_drop]
  refine ⟨?_, ?_, ?_, ?_, ?_, ?_⟩
  · obtain ⟨m0, k0, o0, b0⟩ := ip
    simp only [InputParameters.mk.injEq] at *
    cases ho
    rfl
  · rw [hclosed]
    simp
  · rw [hclosed]
    intro cl hcl
    rw [List.mem_map] at hcl
    obtain ⟨c, hc, rfl⟩ := hcl
    exact constructed_clique_length ip indices shuffles (by omega) c
  · rw [hclosed]
    rw [List.eq_replicate_iff]
    refine ⟨by simp, ?_⟩
    intro s hs
    rw [List.mem_map] at hs
    obtain ⟨c, hc, rfl⟩ := hs
    cases c with
    | zero => rfl
    | succ c => simp [constructed_separator, ho]
  · intro i j hi hj hij v hvi hvj
    obtain ⟨a, ha, hia, hval_i⟩ := hmem_slice i hi v hvi
    obtain ⟨b2, hb2, hjb, hval_j⟩ := hmem_slice j hj v hvj
    have heq : indices[i * ip.k + a] = indices[j * ip.k + b2] := by
      rw [hval_i hia, hval_j hjb]
    have hpos_eq : i * ip.k + a = j * ip.k + b2 :=
      (List.Nodup.getElem_inj_iff hnodup).mp heq
    rcases Nat.lt_or_ge i j with hlt | hge
    · have h2 := Nat.mul_le_mul_right ip.k (show i + 1 ≤ j from hlt)
      have h3 : i * ip.k + ip.k = (i + 1) * ip.k := by ring
      omega
    · have hlt2 : j < i := by omega
      have h2 := Nat.mul_le_mul_right ip.k (show j + 1 ≤ i from hlt2)
      have h3 : j * ip.k + ip.k = (j + 1) * ip.k := by ring
      omega
  · rw [hflat]
    exact hperm

theorem c10_witness :
    (CliqueTree.construct ⟨2, 2, 0, 3⟩ [3, 1, 0, 2] (fun _ l => l)).2
      = List.replicate 2 [] :=
  (c10_o_zero_independent_forest ⟨2, 2, 0, 3⟩ [3, 1, 0, 2] (fun _ l => l)
    (by decide) (by decide) (by decide) (by decide) (by decide)).2.2.2.1

/-! ## Claim C8: separator lookups in the parent clique never panic
(clique_tree.rs, lines 945-962)

The Rust loop body pushes clique_substring[found_index] where found_index is the
position of the separator variable inside the parent clique; a missing position is
the panic branch, modelled by none, as is an out-of-range read of the substring.
-/

def get_child_separator_substring_step (clique clique_substring : List ℕ)
    (acc : Option (List ℕ)) (index : ℕ) : Option (List ℕ) :=
  match acc with
  | none => none
  | some separator_substring =>
    match clique.findIdx? (fun x => x == index) with
    | none => none
    | some found_index =>
      match clique_substring[found_index]? with
      | none => none
      | some v => some (separator_substring ++ [v])

def get_child_separator_substring (clique separator clique_substring : List ℕ) :
    Option (List ℕ) :=
  separator.foldl (get_child_separator_substring_step clique clique_substring) (some [])

theorem get_child_separator_substring_step_some (clique sub : List ℕ)
    (hsub : clique.length ≤ sub.length) (acc : List ℕ) (v : ℕ) (hv : v ∈ clique) :
    ∃ w, get_child_separator_substring_step clique sub (some acc) v = some (acc ++ [w]) := by
  have hfind : clique.findIdx? (fun x => x == v) ≠ none := by
    rw [Ne, List.findIdx?_eq_none_iff]
    intro hall
    have := hall v hv
    simp at this
  obtain ⟨fi, hfi⟩ := Option.ne_none_iff_exists'.mp hfind
  have hfi_lt : fi < clique.length :=
    (List.findIdx?_eq_some_iff_findIdx_eq.mp hfi).1
  have hget : sub[fi]? = some (sub.getD fi 0) := by
    rw [List.getElem?_eq_getElem (by omega)]
    rw [getD_eq_getElem_of_lt sub 0 fi (by omega)]
  refine ⟨sub.getD fi 0, ?_⟩
  simp only [get_child_separator_substring_step, hfi, hget]

theorem get_child_separator_substring_isSome (clique separator sub : List ℕ)
    (hmem : ∀ v ∈ separator, v ∈ clique) (hsub : clique.length ≤ sub.length) :
    (get_child_separator_substring clique separator sub).isSome = true := by
  suffices h : ∀ (sep : List ℕ), (∀ v ∈ sep, v ∈ clique) → ∀ acc : List ℕ,
      (sep.foldl (get_child_separator_substring_step clique sub) (some acc)).isSome = true by
    exact h separator hmem []
  intro sep
  induction sep with
  | nil => intro _ acc; rfl
  | cons v rest ih =>
      intro hall acc
      obtain ⟨w, hw⟩ := get_child_separator_substring_step_some clique sub hsub acc v
        (hall v (List.mem_cons_self v rest))
      rw [List.foldl_cons, hw]
      exact ih (fun x hx => hall x (List.mem_cons_of_mem v hx)) (acc ++ [w])

/-- C8: on any tree returned by construct from valid parameters, the separator of a
non-root clique c is the first o entries of clique c, every separator variable occurs
in the clique of the parent that created c, and consequently
get_child_separator_substring applied to the parent clique of c, the separator of c,
and any substring of length at least k returns some value: the not-found panic branch
is unreachable for the parent-child pairs that calculate_global_optima visits (child
c of parent i satisfies c = i*b + j + 1 for some j below b). -/
theorem c8_separator_parent_lookup (ip : InputParameters) (indices : List ℕ)
    (shuffles : ℕ → List ℕ → List ℕ)
    (hm : 1 ≤ ip.m) (hk : 1 ≤ ip.k) (hk32 : ip.k < 32) (ho : ip.o < ip.k) (hb : 1 ≤ ip.b)
    (hlen : indices.length = (ip.m - 1) * (ip.k - ip.o) + ip.k)
    (hshuffle : ∀ c l, List.Perm (shuffles c l) l) :
    ∀ c, 1 ≤ c → c < ip.m →
      ((CliqueTree.construct ip indices shuffles).2.getD c []
          = ((CliqueTree.construct ip indices shuffles).1.getD c []).take ip.o) ∧
      (∀ v ∈ (CliqueTree.construct ip indices shuffles).2.getD c [],
          v ∈ (CliqueTree.construct ip indices shuffles).1.getD
            ((c - 1) / branch_eff ip) []) ∧
      (∀ i j, j < ip.b → c = i * ip.b + j + 1 →
        ∀ clique_substring : List ℕ, ip.k ≤ clique_substring.length →
          (get_child_separator_substring
              ((CliqueTree.construct ip indices shuffles).1.getD i [])
              ((CliqueTree.construct ip indices shuffles).2.getD c [])
              clique_substring).isSome = true) := by
  have hclosed := construct_eq_closed ip indices shuffles hm hb
  intro c hc1 hcm
  obtain ⟨c', rfl⟩ : ∃ c', c = c' + 1 := ⟨c - 1, by omega⟩
  have hparent_lt : c' / branch_eff ip < ip.m := by
    have := Nat.div_le_self c' (branch_eff ip)
    omega
  have hsep_eq : (CliqueTree.construct ip indices shuffles).2.getD (c' + 1) []
      = constructed_separator ip indices shuffles (c' + 1) := by
    rw [hclosed]
    exact getD_map_range _ _ _ _ hcm
  have hcl_eq : (CliqueTree.construct ip indices shuffles).1.getD (c' + 1) []
      = constructed_clique ip indices shuffles (c' + 1) := by
    rw [hclosed]
    exact getD_map_range _ _ _ _ hcm
  have hpar_eq : (CliqueTree.construct ip indices shuffles).1.getD
        (c' / branch_eff ip) []
      = constructed_clique ip indices shuffles (c' / branch_eff ip) := by
    rw [hclosed]
    exact getD_map_range _ _ _ _ hparent_lt
  have hsep_len : (constructed_separator ip indices shuffles (c' + 1)).length = ip.o := by
    cases hc : c' + 1 with
    | zero => omega
    | succ c2 => simp [constructed_separator]
  refine ⟨?_, ?_, ?_⟩
  · rw [hsep_eq, hcl_eq, constructed_clique_succ, ← hsep_len, List.take_left]
  · simp only [Nat.add_sub_cancel]
    rw [hsep_eq, hpar_eq]
    exact constructed_separator_mem_parent ip indices shuffles (by omega) hshuffle c'
  · intro i j hj hcij sub hsub
    have hdiv : c' / branch_eff ip = i ∨ ip.o = 0 := by
      by_cases ho0 : ip.o = 0
      · right; exact ho0
      · left
        have hbe : branch_eff ip = ip.b := by simp [branch_eff, ho0]
        have hc' : c' = i * ip.b + j := by omega
        rw [hbe, hc', Nat.mul_comm i ip.b, Nat.add_comm,
          Nat.add_mul_div_left j i (by omega : 0 < ip.b), Nat.div_eq_of_lt hj, Nat.zero_add]
    rcases hdiv with hdiv | ho0
    · have hmem2 : ∀ v ∈ (CliqueTree.construct ip indices shuffles).2.getD (c' + 1) [],
          v ∈ (CliqueTree.construct ip indices shuffles).1.getD i [] := by
        rw [← hdiv]
        rw [hsep_eq, hpar_eq]
        exact constructed_separator_mem_parent ip indices shuffles (by omega) hshuffle c'
      apply get_child_separator_substring_isSome _ _ _ hmem2
      have hilt : i < ip.m := by
        rw [← hdiv]
        exact hparent_lt
      have : (CliqueTree.construct ip indices shuffles).1.getD i []
          = constructed_clique ip indices shuffles i := by
        rw [hclosed]
        exact getD_map_range _ _ _ _ hilt
      rw [this, constructed_clique_length ip indices shuffles (by omega)]
      exact hsub
    · have hs0 : (CliqueTree.construct ip indices shuffles).2.getD (c' + 1) [] = [] := by
        rw [hsep_eq]
        simp [constructed_separator, ho0]
      rw [hs0]
      rfl

theorem c8_witness :
    (get_child_separator_substring
        ((CliqueTree.construct ⟨2, 2, 1, 1⟩ [0, 1, 2] (fun _ l => l)).1.getD 0 [])
        ((CliqueTree.construct ⟨2, 2, 1, 1⟩ [0, 1, 2] (fun _ l => l)).2.getD 1 [])
        [0, 0]).isSome = true :=
  ((c8_separator_parent_lookup ⟨2, 2, 1, 1⟩ [0, 1, 2] (fun _ l => l)
      (by decide) (by decide) (by decide) (by decide) (by decide) (by decide)
      (fun _ l => List.Perm.refl l)) 1 (by decide) (by decide)).2.2 0 0
    (by decide) (by decide) [0, 0] (by decide)

/-! ## The separable optimizer (clique_tree.rs, lines 147-255)

get_possible_substrings is from lines 916-928; the Rust assert that length < 32 only
guards against machine-integer shift overflow, which natural-number shifts do not
have, and every theorem below restricts k below 32 anyway.
-/

def get_possible_substrings (length : ℕ) : List (List ℕ) :=
  (List.range (1 <<< length)).map (fun substring_as_index =>
    (List.range length).reverse.map (fun i => (substring_as_index >>> i) &&& 1))

/-- Inner loop of calculate_global_optimum_separable for one clique: scan table
entries 1 .. 2^k-1 keeping the running highest score and the indices that tie with
it; an equal-within-epsilon score is appended (without updating the highest score), a
better-by-epsilon score clears the collection. -/
def separable_scan_step (codomain_clique : List ℚ) (st : ℚ × List ℕ) (j : ℕ) :
    ℚ × List ℕ :=
  let score := codomain_clique.getD j 0
  if is_equal_fitness score st.1 then (st.1, st.2 ++ [j])
  else if is_better_fitness score st.1 then (score, [j])
  else st

def separable_scan (codomain_clique : List ℚ) (k : ℕ) : ℚ × List ℕ :=
  (List.range' 1 (2 ^ k - 1)).foldl (separable_scan_step codomain_clique)
    (codomain_clique.getD 0 0, [0])

/-- Recursive expansion of the per-clique optima into full strings, from lines
211-255. The Rust code first clones the current result block t-1 times (t the number
of tied optima of the current clique) and then writes optimum number num into block
num; block num of the grown vector is exactly the original result with optimum num
written into it, which the flatMap below builds directly. The Rust guard is an
equality test current_index == m reached by unit increments from 0; at larger
indices the Rust code would read clique_optimas out of bounds and panic. -/
def write_block (input_parameters : InputParameters) (cliques : List (List ℕ))
    (clique_optimum : ℕ) (current_index : ℕ) (s : List ℕ) : List ℕ :=
  (List.range input_parameters.k).foldl
    (fun s2 j => s2.set ((cliques.getD current_index []).getD j 0)
      ((clique_optimum >>> (input_parameters.k - j - 1)) &&& 1)) s

def CliqueTree.set_optimal_clique_substrings (input_parameters : InputParameters)
    (cliques : List (List ℕ)) (result_optima_strings : List (List ℕ))
    (clique_optimas : List (List ℕ)) (current_index : ℕ) : List (List ℕ) :=
  if input_parameters.m ≤ current_index then result_optima_strings
  else
    let new_result := (clique_optimas.getD current_index []).flatMap
      (fun clique_optimum =>
        result_optima_strings.map
          (write_block input_parameters cliques clique_optimum current_index))
    CliqueTree.set_optimal_clique_substrings input_parameters cliques new_result
      clique_optimas (current_index + 1)
termination_by input_parameters.m - current_index
decreasing_by omega

def CliqueTree.calculate_global_optimum_separable (input_parameters : InputParameters)
    (codomain_values : List (List ℚ)) (cliques : List (List ℕ)) :
    List (List ℕ × ℚ) :=
  let scans := (List.range input_parameters.m).foldl
    (fun acc i =>
      let scan := separable_scan (codomain_values.getD i []) input_parameters.k
      (acc.1 + scan.1, acc.2 ++ [scan.2]))
    ((0 : ℚ), ([] : List (List ℕ)))
  let result_optima_strings := CliqueTree.set_optimal_clique_substrings input_parameters
    cliques [List.replicate (input_parameters.m * input_parameters.k) 0] scans.2 0
  result_optima_strings.map (fun optimum => (optimum, scans.1))

/-! ## Claim C1: the returned optima evaluate to the reported score -/

def c1_tree : CliqueTree :=
  ⟨⟨1, 1, 0, 1⟩, CodomainFunction.Unknown, [[0]],
    [[12 / 100000000000, 6 / 100000000000]],
    [[0], [1]], 12 / 100000000000⟩

/-- C1 failing input: the one-clique one-variable instance with table values
1.2e-10 and 0.6e-10 (an approximate tie, within FITNESS_EPSILON of each other but
not equal). The solver returns both strings with the reported score 1.2e-10, yet the
string [1] evaluates under calculate_fitness to 0.6e-10, which differs from the
reported optimum score; the claim that every returned string evaluates to the
reported score therefore fails on this input. -/
theorem c1_near_tie_breaks_optimum_reporting :
    (CliqueTree.calculate_global_optimum_separable ⟨1, 1, 0, 1⟩
        [[12 / 100000000000, 6 / 100000000000]] [[0]]
      = [([0], 12 / 100000000000), ([1], 12 / 100000000000)]) ∧
    (CliqueTree.calculate_fitness c1_tree [1] = 6 / 100000000000) ∧
    ((6 : ℚ) / 100000000000 ≠ 12 / 100000000000) := by
  refine ⟨?_, ?_, by norm_num⟩
  · have h1 : separable_scan [12 / 100000000000, 6 / 100000000000] 1
        = (12 / 100000000000, [0, 1]) := by
      norm_num [separable_scan, separable_scan_step, List.range', is_equal_fitness,
        is_better_fitness, FITNESS_EPSILON, abs_lt]
    have h2 : CliqueTree.set_optimal_clique_substrings ⟨1, 1, 0, 1⟩ [[0]] [[0]] [[0, 1]] 0
        = [[0], [1]] := by
      rw [CliqueTree.set_optimal_clique_substrings]
      norm_num
      have e1 : write_block ⟨1, 1, 0, 1⟩ [[0]] 0 0 [0] = [0] := by decide
      have e2 : write_block ⟨1, 1, 0, 1⟩ [[0]] 1 0 [0] = [1] := by decide
      rw [e1, e2, CliqueTree.set_optimal_clique_substrings]
      norm_num
    simp only [CliqueTree.calculate_global_optimum_separable, List.range_succ,
      List.range_zero, List.foldl_cons, List.foldl_nil, List.nil_append,
      List.getD_cons_zero]
    rw [h1]
    simp only [List.map_cons, List.map_nil]
    rw [show (1 * 1 : ℕ) = 1 from rfl, show List.replicate 1 (0 : ℕ) = [0] from rfl]
    rw [h2]
    simp only [List.map_cons, List.map_nil]
    norm_num
  · have hidx : clique_substring_as_index [1] [0] = 1 := by decide
    simp only [CliqueTree.calculate_fitness, c1_tree]
    rw [show ([[0]] : List (List ℕ)).length = 1 from rfl]
    simp only [List.range_succ, List.range_zero, List.foldl_cons, List.foldl_nil,
      List.nil_append, List.getD_cons_zero]
    rw [hidx]
    norm_num

/-! ## Comparator facts used in the scan analyses -/

theorem fitness_epsilon_pos : (0 : ℚ) < FITNESS_EPSILON := by
  norm_num [FITNESS_EPSILON]

theorem equal_fitness_self (a : ℚ) : is_equal_fitness a a = true := by
  simp [is_equal_fitness, fitness_epsilon_pos]

theorem gap_not_equal_high_low (a b : ℚ) (h : a + 2 * FITNESS_EPSILON ≤ b) :
    is_equal_fitness b a = false := by
  have heps := fitness_epsilon_pos
  have h1 : |b - a| = b - a := abs_of_nonneg (by linarith)
  simp only [is_equal_fitness, decide_eq_false_iff_not, not_lt, h1]
  linarith

theorem gap_not_equal_low_high (a b : ℚ) (h : a + 2 * FITNESS_EPSILON ≤ b) :
    is_equal_fitness a b = false := by
  have heps := fitness_epsilon_pos
  have h1 : |a - b| = b - a := by
    rw [abs_sub_comm]
    exact abs_of_nonneg (by linarith)
  simp only [is_equal_fitness, decide_eq_false_iff_not, not_lt, h1]
  linarith

theorem gap_better (a b : ℚ) (h : a + 2 * FITNESS_EPSILON ≤ b) :
    is_better_fitness b a = true := by
  have heps := fitness_epsilon_pos
  have h1 : |b - a| = b - a := abs_of_nonneg (by linarith)
  simp only [is_better_fitness, Bool.and_eq_true, decide_eq_true_eq, ge_iff_le, h1]
  constructor
  · linarith
  · linarith

theorem le_not_better (a b : ℚ) (h : a ≤ b) : is_better_fitness a b = false := by
  simp only [is_better_fitness, Bool.and_eq_false_iff, decide_eq_false_iff_not, not_lt]
  left
  exact h

/-! ## Characterization of the separable per-clique scan under exact separation -/

theorem filter_singleton_true {p : ℕ → Bool} {a : ℕ} (h : p a = true) :
    List.filter p [a] = [a] := by
  simp [List.filter_cons, h]

theorem filter_singleton_false {p : ℕ → Bool} {a : ℕ} (h : p a = false) :
    List.filter p [a] = [] := by
  simp [List.filter_cons, h]

/-- Under the separation hypothesis (every table entry either equals the clique
maximum or lies at least two epsilon below it), the separable scan returns the exact
maximum together with exactly the indices attaining it, in order. -/
theorem separable_scan_spec (table : List ℚ) (k : ℕ) (mxv : ℚ)
    (hatt : ∃ j, j < 2 ^ k ∧ table.getD j 0 = mxv)
    (hsep : ∀ j, j < 2 ^ k → table.getD j 0 = mxv ∨
      table.getD j 0 + 2 * FITNESS_EPSILON ≤ mxv) :
    separable_scan table k
      = (mxv, (List.range (2 ^ k)).filter (fun j => table.getD j 0 == mxv)) := by
  have heps := fitness_epsilon_pos
  set p : ℕ → Bool := fun j => table.getD j 0 == mxv with hp
  have hp_true : ∀ j, table.getD j 0 = mxv → p j = true := by
    intro j h
    show (table.getD j 0 == mxv) = true
    rw [beq_iff_eq]
    exact h
  have hp_false : ∀ j, table.getD j 0 ≠ mxv → p j = false := by
    intro j h
    show (table.getD j 0 == mxv) = false
    rw [beq_eq_false_iff_ne]
    exact h
  have hinv : ∀ n, n + 1 ≤ 2 ^ k →
      ((∃ a, a ≤ n ∧ table.getD a 0 = mxv) →
        (List.range' 1 n).foldl (separable_scan_step table) (table.getD 0 0, [0])
          = (mxv, (List.range (n + 1)).filter p)) ∧
      ((∀ a, a ≤ n → table.getD a 0 ≠ mxv) →
        ((List.range' 1 n).foldl (separable_scan_step table) (table.getD 0 0, [0])).1
          + 2 * FITNESS_EPSILON ≤ mxv) := by
    intro n
    induction n with
    | zero =>
        intro h1
        constructor
        · rintro ⟨a, ha, hva⟩
          obtain rfl : a = 0 := by omega
          simp only [List.range', List.foldl_nil]
          rw [show List.range 1 = [0] from rfl, filter_singleton_true (hp_true 0 hva), hva]
        · intro hall
          rcases hsep 0 (by omega) with h | h
          · exact absurd h (hall 0 (le_refl 0))
          · simpa using h
    | succ n ih =>
        intro hn1
        have ihn := ih (by omega)
        rw [List.range'_concat, List.foldl_append]
        have h1n : 1 + 1 * n = n + 1 := by omega
        rw [h1n]
        simp only [List.foldl_cons, List.foldl_nil]
        constructor
        · rintro ⟨a, ha, hva⟩
          by_cases hmem : ∃ a, a ≤ n ∧ table.getD a 0 = mxv
          · have hstA := ihn.1 hmem
            rw [hstA]
            rcases hsep (n + 1) (by omega) with hw | hw
            · have hEQ : is_equal_fitness (table.getD (n + 1) 0)
                  (mxv, (List.range (n + 1)).filter p).1 = true := by
                rw [hw]
                exact equal_fitness_self mxv
              simp only [separable_scan_step]
              rw [if_pos hEQ]
              have hr : (List.range (n + 1 + 1)).filter p
                  = (List.range (n + 1)).filter p ++ [n + 1] := by
                rw [List.range_succ, List.filter_append,
                  filter_singleton_true (hp_true (n + 1) hw)]
              rw [hr]
            · have hne : table.getD (n + 1) 0 ≠ mxv := by
                intro he
                rw [he] at hw
                linarith
              have hEQ : is_equal_fitness (table.getD (n + 1) 0)
                  (mxv, (List.range (n + 1)).filter p).1 = false :=
                gap_not_equal_low_high _ _ hw
              have hBT : is_better_fitness (table.getD (n + 1) 0)
                  (mxv, (List.range (n + 1)).filter p).1 = false :=
                le_not_better _ _ (by linarith)
              simp only [separable_scan_step]
              rw [if_neg (by rw [hEQ]; exact Bool.false_ne_true),
                if_neg (by rw [hBT]; exact Bool.false_ne_true)]
              have hr : (List.range (n + 1 + 1)).filter p = (List.range (n + 1)).filter p := by
                rw [List.range_succ, List.filter_append,
                  filter_singleton_false (hp_false (n + 1) hne), List.append_nil]
              rw [hr]
          · push_neg at hmem
            have hstB := ihn.2 hmem
            have ha' : a = n + 1 := by
              rcases Nat.lt_or_ge a (n + 1) with h | h
              · exact absurd hva (hmem a (by omega))
              · omega
            subst ha'
            have hEQ : is_equal_fitness (table.getD (n + 1) 0)
                ((List.range' 1 n).foldl (separable_scan_step table)
                  (table.getD 0 0, [0])).1 = false := by
              rw [hva]
              exact gap_not_equal_high_low _ _ hstB
            have hBT : is_better_fitness (table.getD (n + 1) 0)
                ((List.range' 1 n).foldl (separable_scan_step table)
                  (table.getD 0 0, [0])).1 = true := by
              rw [hva]
              exact gap_better _ _ hstB
            simp only [separable_scan_step]
            rw [if_neg (by rw [hEQ]; exact Bool.false_ne_true), if_pos hBT, hva]
            have hfe : (List.range (n + 1)).filter p = [] := by
              rw [List.filter_eq_nil_iff]
              intro j hj
              rw [List.mem_range] at hj
              rw [hp_false j (hmem j (by omega))]
              exact Bool.false_ne_true
            have hr : (List.range (n + 1 + 1)).filter p = [n + 1] := by
              rw [List.range_succ, List.filter_append, hfe,
                filter_singleton_true (hp_true (n + 1) hva), List.nil_append]
            rw [hr]
        · intro hall
          have hmem : ∀ a, a ≤ n → table.getD a 0 ≠ mxv := fun a ha => hall a (by omega)
          have hstB := ihn.2 hmem
          rcases hsep (n + 1) (by omega) with hw | hw
          · exact absurd hw (hall (n + 1) (le_refl _))
          · simp only [separable_scan_step]
            by_cases h1 : is_equal_fitness (table.getD (n + 1) 0)
                ((List.range' 1 n).foldl (separable_scan_step table)
                  (table.getD 0 0, [0])).1 = true
            · rw [if_pos h1]
              exact hstB
            · rw [if_neg h1]
              by_cases h2 : is_better_fitness (table.getD (n + 1) 0)
                  ((List.range' 1 n).foldl (separable_scan_step table)
                    (table.getD 0 0, [0])).1 = true
              · rw [if_pos h2]
                exact hw
              · rw [if_neg h2]
                exact hstB
  obtain ⟨j0, hj0, hv0⟩ := hatt
  have hone : 1 ≤ 2 ^ k := Nat.one_le_two_pow
  have hfin := (hinv (2 ^ k - 1) (by omega)).1 ⟨j0, by omega, hv0⟩
  have h2 : 2 ^ k - 1 + 1 = 2 ^ k := by omega
  rw [h2] at hfin
  rw [separable_scan, hfin]

theorem separable_accum (ip : InputParameters) (codomain_values : List (List ℚ)) :
    ∀ n, (List.range n).foldl
        (fun acc i => (acc.1 + (separable_scan (codomain_values.getD i []) ip.k).1,
          acc.2 ++ [(separable_scan (codomain_values.getD i []) ip.k).2]))
        ((0 : ℚ), ([] : List (List ℕ)))
      = (∑ i ∈ Finset.range n, (separable_scan (codomain_values.getD i []) ip.k).1,
         (List.range n).map (fun i => (separable_scan (codomain_values.getD i []) ip.k).2)) := by
  intro n
  induction n with
  | zero => simp
  | succ n ih =>
      rw [List.range_succ, List.foldl_append, ih]
      simp only [List.foldl_cons, List.foldl_nil, List.map_append, List.map_cons, List.map_nil]
      rw [Finset.sum_range_succ]

theorem set_optimal_substrings_mem (ip : InputParameters)
    (cliques clique_optimas : List (List ℕ)) :
    ∀ (nrem ci : ℕ) (R : List (List ℕ)) (s : List ℕ), nrem = ip.m - ci →
      (s ∈ CliqueTree.set_optimal_clique_substrings ip cliques R clique_optimas ci ↔
        ∃ f : ℕ → ℕ, (∀ i, ci ≤ i → i < ip.m → f i ∈ clique_optimas.getD i []) ∧
          ∃ s0, s0 ∈ R ∧
            s = (List.range' ci (ip.m - ci)).foldl
                  (fun acc i => write_block ip cliques (f i) i acc) s0) := by
  intro nrem
  induction nrem with
  | zero =>
      intro ci R s h0
      have hge : ip.m ≤ ci := by omega
      rw [CliqueTree.set_optimal_clique_substrings, if_pos hge]
      have hr0 : ip.m - ci = 0 := by omega
      rw [hr0]
      simp only [List.range', List.foldl_nil]
      constructor
      · intro hs
        exact ⟨fun _ => 0, fun i hi1 hi2 => absurd hi2 (by omega), s, hs, rfl⟩
      · rintro ⟨f, hf, s0, hs0, rfl⟩
        exact hs0
  | succ nrem ih =>
      intro ci R s h0
      have hlt : ci < ip.m := by omega
      rw [CliqueTree.set_optimal_clique_substrings, if_neg (by omega)]
      rw [ih (ci + 1) _ s (by omega)]
      have hsplit : ip.m - ci = (ip.m - (ci + 1)) + 1 := by omega
      constructor
      · rintro ⟨f, hf, s1, hs1, rfl⟩
        rw [List.mem_flatMap] at hs1
        obtain ⟨copt, hcopt, hs1⟩ := hs1
        rw [List.mem_map] at hs1
        obtain ⟨s0, hs0, rfl⟩ := hs1
        refine ⟨fun i => if i = ci then copt else f i, ?_, s0, hs0, ?_⟩
        · intro i hi1 hi2
          dsimp only
          by_cases hi : i = ci
          · rw [if_pos hi, hi]
            exact hcopt
          · rw [if_neg hi]
            exact hf i (by omega) hi2
        · rw [hsplit, List.range'_succ, List.foldl_cons]
          dsimp only
          rw [if_pos rfl]
          apply List.foldl_ext
          intro acc i hi
          rw [List.mem_range'_1] at hi
          rw [if_neg (by omega)]
      · rintro ⟨g, hg, s0, hs0, rfl⟩
        refine ⟨g, fun i hi1 hi2 => hg i (by omega) hi2, ?_⟩
        refine ⟨write_block ip cliques (g ci) ci s0, ?_, ?_⟩
        · rw [List.mem_flatMap]
          refine ⟨g ci, hg ci (le_refl ci) hlt, ?_⟩
          rw [List.mem_map]
          exact ⟨s0, hs0, rfl⟩
        · rw [hsplit, List.range'_succ, List.foldl_cons]

/-! ## Claim C3: the separable path -/

/-- C3 counterexample: with the one-clique table 1.2e-10, 1.8e-10 the two values are
within FITNESS_EPSILON, so the scan treats index 1 as a tie without updating the
running highest score; the reported score stays 1.2e-10 although the clique maximum
(and hence the claimed sum of per-clique maxima) is 1.8e-10. -/
theorem c3_counterexample_score_below_max_sum :
    ((CliqueTree.calculate_global_optimum_separable ⟨1, 1, 0, 1⟩
        [[12 / 100000000000, 18 / 100000000000]] [[0]]).map Prod.snd
      = [12 / 100000000000, 12 / 100000000000]) ∧
    ((12 : ℚ) / 100000000000 < 18 / 100000000000) := by
  refine ⟨?_, by norm_num⟩
  have h1 : separable_scan [12 / 100000000000, 18 / 100000000000] 1
      = (12 / 100000000000, [0, 1]) := by
    norm_num [separable_scan, separable_scan_step, List.range', is_equal_fitness,
      is_better_fitness, FITNESS_EPSILON, abs_lt]
  have h2 : CliqueTree.set_optimal_clique_substrings ⟨1, 1, 0, 1⟩ [[0]] [[0]] [[0, 1]] 0
      = [[0], [1]] := by
    rw [CliqueTree.set_optimal_clique_substrings]
    norm_num
    have e1 : write_block ⟨1, 1, 0, 1⟩ [[0]] 0 0 [0] = [0] := by decide
    have e2 : write_block ⟨1, 1, 0, 1⟩ [[0]] 1 0 [0] = [1] := by decide
    rw [e1, e2, CliqueTree.set_optimal_clique_substrings]
    norm_num
  simp only [CliqueTree.calculate_global_optimum_separable, List.range_succ,
    List.range_zero, List.foldl_cons, List.foldl_nil, List.nil_append,
    List.getD_cons_zero]
  rw [h1]
  simp only [List.map_cons, List.map_nil]
  rw [show (1 * 1 : ℕ) = 1 from rfl, show List.replicate 1 (0 : ℕ) = [0] from rfl]
  rw [h2]
  simp only [List.map_cons, List.map_nil]
  norm_num

/-- Expansion of one choice of per-clique table indices into the full bit string:
each clique writes the k bits of its chosen index, most significant bit first, at its
variable positions, starting from the all-zero string. -/
def clique_choice_expansion (ip : InputParameters) (cliques : List (List ℕ))
    (choices : List ℕ) : List ℕ :=
  (List.range ip.m).foldl
    (fun s ci => write_block ip cliques (choices.getD ci 0) ci s)
    (List.replicate (ip.m * ip.k) 0)

/-- C3 (amended): for o = 0 and any tables in which every entry either equals its
clique maximum or lies at least 2 epsilon below it, the separable path returns the
sum of per-clique maxima as the common score, and the string set is exactly the
Cartesian product across cliques of the indices within epsilon of each clique
maximum, each combination expanded by writing each clique its bits at its variable
positions. -/
theorem c3_separable_optimum (ip : InputParameters) (codomain_values : List (List ℚ))
    (cliques : List (List ℕ)) (mx : ℕ → ℚ)
    (hm : 1 ≤ ip.m) (hk : 1 ≤ ip.k) (hk32 : ip.k < 32) (ho : ip.o = 0) (hb : 1 ≤ ip.b)
    (hatt : ∀ i, i < ip.m → ∃ j, j < 2 ^ ip.k ∧ (codomain_values.getD i []).getD j 0 = mx i)
    (hsep : ∀ i, i < ip.m → ∀ j, j < 2 ^ ip.k →
      (codomain_values.getD i []).getD j 0 = mx i ∨
        (codomain_values.getD i []).getD j 0 + 2 * FITNESS_EPSILON ≤ mx i) :
    ∃ strings : List (List ℕ),
      CliqueTree.calculate_global_optimum_separable ip codomain_values cliques
        = strings.map (fun s => (s, ∑ i ∈ Finset.range ip.m, mx i)) ∧
      (∀ s, s ∈ strings ↔ ∃ choices : List ℕ, choices.length = ip.m ∧
        (∀ i, i < ip.m → choices.getD i 0 < 2 ^ ip.k ∧
          is_equal_fitness ((codomain_values.getD i []).getD (choices.getD i 0) 0) (mx i)
            = true) ∧
        s = clique_choice_expansion ip cliques choices) := by
  have hscan : ∀ i, i < ip.m →
      separable_scan (codomain_values.getD i []) ip.k
        = (mx i, (List.range (2 ^ ip.k)).filter
            (fun j => (codomain_values.getD i []).getD j 0 == mx i)) := by
    intro i hi
    exact separable_scan_spec _ _ _ (hatt i hi) (hsep i hi)
  refine ⟨CliqueTree.set_optimal_clique_substrings ip cliques
    [List.replicate (ip.m * ip.k) 0]
    ((List.range ip.m).map (fun i => (separable_scan (codomain_values.getD i []) ip.k).2))
    0, ?_, ?_⟩
  · simp only [CliqueTree.calculate_global_optimum_separable]
    rw [separable_accum ip codomain_values ip.m]
    have hsum : (∑ i ∈ Finset.range ip.m, (separable_scan (codomain_values.getD i []) ip.k).1)
        = ∑ i ∈ Finset.range ip.m, mx i := by
      apply Finset.sum_congr rfl
      intro i hi
      rw [hscan i (Finset.mem_range.mp hi)]
    rw [hsum]
  · intro s
    rw [set_optimal_substrings_mem ip cliques _ (ip.m - 0) 0 _ s rfl]
    constructor
    · rintro ⟨f, hf, s0, hs0, rfl⟩
      rw [List.mem_singleton] at hs0
      subst hs0
      refine ⟨(List.range ip.m).map f, by simp, ?_, ?_⟩
      · intro i hi
        have hfi := hf i (by omega) hi
        rw [getD_map_range _ _ _ _ hi, hscan i hi] at hfi
        dsimp only at hfi
        rw [List.mem_filter] at hfi
        obtain ⟨hfr, hfv⟩ := hfi
        rw [List.mem_range] at hfr
        rw [getD_map_range f ip.m i 0 hi]
        refine ⟨hfr, ?_⟩
        rw [beq_iff_eq] at hfv
        rw [hfv]
        exact equal_fitness_self (mx i)
      · rw [clique_choice_expansion, List.range_eq_range', Nat.sub_zero]
        apply List.foldl_ext
        intro acc i hi
        rw [List.mem_range'_1] at hi
        rw [← List.range_eq_range', getD_map_range f ip.m i 0 (by omega)]
    · rintro ⟨choices, hclen, hcond, rfl⟩
      refine ⟨fun i => choices.getD i 0, ?_, List.replicate (ip.m * ip.k) 0,
        List.mem_singleton.mpr rfl, ?_⟩
      · intro i hi1 hi2
        rw [getD_map_range _ _ _ _ hi2, hscan i hi2]
        dsimp only
        rw [List.mem_filter]
        obtain ⟨hlt2, heq2⟩ := hcond i hi2
        refine ⟨List.mem_range.mpr hlt2, ?_⟩
        rw [beq_iff_eq]
        rcases hsep i hi2 (choices.getD i 0) hlt2 with hv | hv
        · exact hv
        · exfalso
          have hfalse := gap_not_equal_low_high _ _ hv
          rw [hfalse] at heq2
          exact Bool.false_ne_true heq2
      · rw [clique_choice_expansion, List.range_eq_range', Nat.sub_zero]

theorem c3_witness :
    ∃ strings : List (List ℕ),
      CliqueTree.calculate_global_optimum_separable ⟨1, 1, 0, 1⟩ [[5, 1]] [[0]]
        = strings.map (fun s => (s, ∑ i ∈ Finset.range 1, (fun _ : ℕ => (5 : ℚ)) i)) ∧
      (∀ s, s ∈ strings ↔ ∃ choices : List ℕ, choices.length = 1 ∧
        (∀ i, i < 1 → choices.getD i 0 < 2 ^ 1 ∧
          is_equal_fitness ((([[5, 1]] : List (List ℚ)).getD i []).getD (choices.getD i 0) 0)
            ((fun _ : ℕ => (5 : ℚ)) i) = true) ∧
        s = clique_choice_expansion ⟨1, 1, 0, 1⟩ [[0]] choices) :=
  c3_separable_optimum ⟨1, 1, 0, 1⟩ [[5, 1]] [[0]] (fun _ => 5)
    (by decide) (by decide) (by decide) (by decide) (by decide)
    (by
      intro i hi
      have hi1 : i < 1 := hi
      obtain rfl : i = 0 := by omega
      exact ⟨0, by norm_num⟩)
    (by
      intro i hi j hj
      have hi1 : i < 1 := hi
      have hj1 : j < 2 := hj
      obtain rfl : i = 0 := by omega
      match j, hj1 with
      | 0, _ => left; norm_num
      | 1, _ => right; norm_num [FITNESS_EPSILON]
      | n + 2, h => exact absurd h (by omega))

/-! ## The general elimination pass (clique_tree.rs, lines 258-396)

The leaves-to-root pass of calculate_global_optima fills best_scores[i][s] for every
non-root clique i and separator value s. The embedding below mirrors the source:

* transform_substring_vector_to_index is the bit-packing helper of lines 964-974;
* start_indices_loop is the while loop of lines 299-306 computing the level start
  offsets, with explicit fuel (the loop runs at most m iterations when b is at least
  1, because the partial sum grows by at least one per iteration; m+1 fuel is ample);
* gscan_step is the body of the inner loop of lines 335-388: a cleared-or-kept score
  list followed by a conditional push, and gscan is the loop over all free values;
* pass_score is the per-entry score: the codomain value plus, for cliques above the
  lowest level, the stored best score of every existing child, where the Rust break
  on child_index >= m is replaced by an equivalent skip (the child index grows along
  the loop);
* elimination_pass folds over the non-root cliques in descending order carrying the
  current level and its start offset exactly as the two mutable locals do, and
  writes row i as the per-separator-value list of scan results (the source pushes
  the scan results one by one into the initially empty best_scores[i][j]).
-/

def transform_substring_vector_to_index (substring : List ℕ) : ℕ :=
  (((List.range substring.length).reverse).foldl
    (fun st i => (st.1 + substring.getD i 0 <<< st.2, st.2 + 1)) (0, 0)).1

def start_indices_loop (m b : ℕ) : ℕ → ℕ → ℕ → List ℕ → (List ℕ × ℕ × ℕ)
  | 0, sum, l, acc => (acc, sum, l)
  | fuel + 1, sum, l, acc =>
      if sum < m then start_indices_loop m b fuel (sum + b ^ l) (l + 1) (acc ++ [sum])
      else (acc, sum, l)

def start_indices_result (m b : ℕ) : List ℕ × ℕ × ℕ :=
  start_indices_loop m b (m + 1) 0 0 []

def gscan_step (score_of : ℕ → ℚ) (sub_of : ℕ → List ℕ)
    (st : List (List ℕ × ℚ) × ℚ) (f : ℕ) : List (List ℕ × ℚ) × ℚ :=
  let score := score_of f
  let scores1 := if st.1 ≠ [] ∧ is_better_fitness score st.2 = true then [] else st.1
  if scores1 = [] ∨ is_better_or_equal_fitness score st.2 = true then
    (scores1 ++ [(sub_of f, score)], score)
  else (scores1, st.2)

def gscan (score_of : ℕ → ℚ) (sub_of : ℕ → List ℕ) (n : ℕ) : List (List ℕ × ℚ) :=
  ((List.range n).foldl (gscan_step score_of sub_of) ([], 0)).1

def pass_score (ip : InputParameters) (codomain_values : List (List ℚ))
    (cliques separators : List (List ℕ)) (best : List (List (List (List ℕ × ℚ))))
    (start_indices : List ℕ) (start_index_lowest_level : ℕ)
    (current_level start_index_current_level : ℕ) (i j f : ℕ) : ℚ :=
  let score := (codomain_values.getD i []).getD
    (j * (get_possible_substrings (ip.k - ip.o)).length + f) 0
  if i < start_index_lowest_level then
    (List.range ip.b).foldl
      (fun sc jj =>
        let child_index := start_indices.getD (current_level + 1) 0
          + ip.b * (i - start_index_current_level) + jj
        if ip.m ≤ child_index then sc
        else
          let separator_substring := (get_child_separator_substring (cliques.getD i [])
            (separators.getD child_index [])
            ((get_possible_substrings ip.k).getD
              (j * (get_possible_substrings (ip.k - ip.o)).length + f) [])).getD []
          sc + (((best.getD child_index []).getD
            (transform_substring_vector_to_index separator_substring) []).headD
              ([], 0)).2)
      score
  else score

def elimination_pass (ip : InputParameters) (codomain_values : List (List ℚ))
    (cliques separators : List (List ℕ)) : List (List (List (List ℕ × ℚ))) :=
  let best0 : List (List (List (List ℕ × ℚ))) :=
    List.replicate ip.m (List.replicate (2 ^ ip.o) [])
  let si := (start_indices_result ip.m ip.b).1
  let sum := (start_indices_result ip.m ip.b).2.1
  let l := (start_indices_result ip.m ip.b).2.2
  let start_index_lowest_level := sum - ip.b ^ (l - 1)
  let lowest_level := l - 1
  (((List.range' 1 (ip.m - 1)).reverse).foldl
    (fun (st : List (List (List (List ℕ × ℚ))) × ℕ × ℕ) i =>
      let current_level := if i < st.2.2 then st.2.1 - 1 else st.2.1
      let start_index_current_level := if i < st.2.2 then si.getD (st.2.1 - 1) 0 else st.2.2
      let row := (List.range (get_possible_substrings ip.o).length).map
        (fun j =>
          gscan
            (pass_score ip codomain_values cliques separators st.1 si
              start_index_lowest_level current_level start_index_current_level i j)
            (fun f => (get_possible_substrings (ip.k - ip.o)).getD f [])
            (get_possible_substrings (ip.k - ip.o)).length)
      (st.1.set i row, current_level, start_index_current_level))
    (best0, lowest_level, start_index_lowest_level)).1

/-- Score of separator value j and free value f at clique i as the claim describes
it: the codomain entry plus the recorded best score of every child of clique i, the
children of clique i in the level-order tree being the existing indices among
b*i+1 .. b*i+b. -/
def dp_score (ip : InputParameters) (codomain_values : List (List ℚ))
    (cliques separators : List (List ℕ)) (best : List (List (List (List ℕ × ℚ))))
    (i j f : ℕ) : ℚ :=
  (codomain_values.getD i []).getD (j * 2 ^ (ip.k - ip.o) + f) 0 +
    (((List.range' (ip.b * i + 1) ip.b).filter (fun c => c < ip.m)).map
      (fun child_index =>
        (((best.getD child_index []).getD
          (transform_substring_vector_to_index
            ((get_child_separator_substring (cliques.getD i [])
              (separators.getD child_index [])
              ((get_possible_substrings ip.k).getD (j * 2 ^ (ip.k - ip.o) + f) [])).getD
              []))
          []).headD ([], 0)).2)).sum

/-- Reference recomputation of the pass, processing cliques m-1 down to m-t, with
each row written against the rows already written (all of them above the current
clique). -/
def dp_best (ip : InputParameters) (codomain_values : List (List ℚ))
    (cliques separators : List (List ℕ)) : ℕ → List (List (List (List ℕ × ℚ)))
  | 0 => List.replicate ip.m (List.replicate (2 ^ ip.o) [])
  | t + 1 =>
      let prev := dp_best ip codomain_values cliques separators t
      let i := ip.m - 1 - t
      prev.set i ((List.range (2 ^ ip.o)).map (fun j =>
        gscan (dp_score ip codomain_values cliques separators prev i j)
          (fun f => (get_possible_substrings (ip.k - ip.o)).getD f [])
          (2 ^ (ip.k - ip.o))))

def geo_sum (b : ℕ) : ℕ → ℕ
  | 0 => 0
  | l + 1 => geo_sum b l + b ^ l

theorem geo_sum_succ (b l : ℕ) : geo_sum b (l + 1) = geo_sum b l + b ^ l := rfl

theorem geo_sum_lt_succ (b : ℕ) (hb : 1 ≤ b) (l : ℕ) :
    geo_sum b l < geo_sum b (l + 1) := by
  have h1 : 1 ≤ b ^ l := Nat.one_le_pow l b hb
  rw [geo_sum_succ]; omega

theorem geo_sum_strictMono (b : ℕ) (hb : 1 ≤ b) : StrictMono (geo_sum b) :=
  strictMono_nat_of_lt_succ (geo_sum_lt_succ b hb)

theorem geo_sum_key (b : ℕ) : ∀ l, geo_sum b (l + 1) = b * geo_sum b l + 1
  | 0 => by simp [geo_sum]
  | l + 1 => by
      have ih := geo_sum_key b l
      rw [geo_sum_succ b (l + 1)]
      conv_lhs => rw [ih]
      conv_rhs => rw [geo_sum_succ]
      rw [pow_succ]
      ring

theorem start_indices_loop_spec (m b : ℕ) (hb : 1 ≤ b) :
    ∀ fuel l0, m ≤ geo_sum b l0 + fuel →
      ∃ L, l0 ≤ L ∧
        start_indices_loop m b fuel (geo_sum b l0) l0 ((List.range l0).map (geo_sum b))
          = ((List.range L).map (geo_sum b), geo_sum b L, L) ∧
        m ≤ geo_sum b L ∧ ∀ i, l0 ≤ i → i < L → geo_sum b i < m := by
  intro fuel
  induction fuel with
  | zero =>
      intro l0 h
      exact ⟨l0, le_refl _, rfl, by omega, by intro i h1 h2; omega⟩
  | succ fuel ih =>
      intro l0 h
      by_cases hlt : geo_sum b l0 < m
      · have hfuel : m ≤ geo_sum b (l0 + 1) + fuel := by
          have h1 : 1 ≤ b ^ l0 := Nat.one_le_pow l0 b hb
          rw [geo_sum_succ]
          omega
        obtain ⟨L, hL0, hL1, hL2, hL3⟩ := ih (l0 + 1) hfuel
        refine ⟨L, by omega, ?_, hL2, ?_⟩
        · have hstep : geo_sum b l0 + b ^ l0 = geo_sum b (l0 + 1) := (geo_sum_succ b l0).symm
          have hacc : (List.range l0).map (geo_sum b) ++ [geo_sum b l0]
              = (List.range (l0 + 1)).map (geo_sum b) := by
            rw [List.range_succ, List.map_append, List.map_singleton]
          simp only [start_indices_loop]
          rw [if_pos hlt, hstep, hacc]
          exact hL1
        · intro i h1 h2
          rcases Nat.eq_or_lt_of_le h1 with he | hgt
          · rw [← he]; exact hlt
          · exact hL3 i hgt h2
      · refine ⟨l0, le_refl _, ?_, by omega, by intro i h1 h2; omega⟩
        simp only [start_indices_loop]
        rw [if_neg hlt]

theorem start_indices_result_spec (m b : ℕ) (hb : 1 ≤ b) (hm : 1 ≤ m) :
    ∃ L, 1 ≤ L ∧
      start_indices_result m b = ((List.range L).map (geo_sum b), geo_sum b L, L) ∧
      m ≤ geo_sum b L ∧ geo_sum b (L - 1) < m ∧ ∀ i, i < L → geo_sum b i < m := by
  obtain ⟨L, _, h1, h2, h3⟩ := start_indices_loop_spec m b hb (m + 1) 0
    (by show m ≤ 0 + (m + 1); omega)
  have hL1 : 1 ≤ L := by
    by_contra hc
    have hL0 : L = 0 := by omega
    rw [hL0] at h2
    have : geo_sum b 0 = 0 := rfl
    omega
  refine ⟨L, hL1, h1, h2, h3 (L - 1) (Nat.zero_le _) (by omega), fun i hi => h3 i (Nat.zero_le _) hi⟩

theorem gap_not_boe (a b : ℚ) (h : a + 2 * FITNESS_EPSILON ≤ b) :
    is_better_or_equal_fitness a b = false := by
  have heps := fitness_epsilon_pos
  simp only [is_better_or_equal_fitness, Bool.or_eq_false_iff, decide_eq_false_iff_not,
    not_lt]
  exact ⟨by linarith, gap_not_equal_low_high a b h⟩

theorem boe_self (a : ℚ) : is_better_or_equal_fitness a a = true := by
  simp only [is_better_or_equal_fitness, Bool.or_eq_true]
  right
  exact equal_fitness_self a

theorem gscan_step_clear_push (score_of : ℕ → ℚ) (sub_of : ℕ → List ℕ)
    (S : List (List ℕ × ℚ)) (h : ℚ) (f : ℕ)
    (hc1 : S ≠ [] ∧ is_better_fitness (score_of f) h = true) :
    gscan_step score_of sub_of (S, h) f = ([(sub_of f, score_of f)], score_of f) := by
  simp only [gscan_step]
  rw [if_pos hc1, if_pos (Or.inl rfl), List.nil_append]

theorem gscan_step_keep_push (score_of : ℕ → ℚ) (sub_of : ℕ → List ℕ)
    (S : List (List ℕ × ℚ)) (h : ℚ) (f : ℕ)
    (hc1 : ¬(S ≠ [] ∧ is_better_fitness (score_of f) h = true))
    (hc2 : S = [] ∨ is_better_or_equal_fitness (score_of f) h = true) :
    gscan_step score_of sub_of (S, h) f
      = (S ++ [(sub_of f, score_of f)], score_of f) := by
  simp only [gscan_step]
  rw [if_neg hc1, if_pos hc2]

theorem gscan_step_keep_skip (score_of : ℕ → ℚ) (sub_of : ℕ → List ℕ)
    (S : List (List ℕ × ℚ)) (h : ℚ) (f : ℕ)
    (hc1 : ¬(S ≠ [] ∧ is_better_fitness (score_of f) h = true))
    (hc2 : ¬(S = [] ∨ is_better_or_equal_fitness (score_of f) h = true)) :
    gscan_step score_of sub_of (S, h) f = (S, h) := by
  simp only [gscan_step]
  rw [if_neg hc1, if_neg hc2]

/-- Under the separation hypothesis, the general inner scan of the elimination pass
returns exactly the free values attaining the maximum, in order, each paired with
the maximal score, and the running highest score ends at the maximum. -/
theorem gscan_spec (score_of : ℕ → ℚ) (sub_of : ℕ → List ℕ) (n : ℕ) (mxv : ℚ)
    (hatt : ∃ f, f < n ∧ score_of f = mxv)
    (hsep : ∀ f, f < n → score_of f = mxv ∨ score_of f + 2 * FITNESS_EPSILON ≤ mxv) :
    gscan score_of sub_of n
      = ((List.range n).filter (fun f => score_of f == mxv)).map
          (fun f => (sub_of f, mxv)) := by
  have heps := fitness_epsilon_pos
  set p : ℕ → Bool := fun f => score_of f == mxv with hp
  have hp_true : ∀ f, score_of f = mxv → p f = true := by
    intro f h
    show (score_of f == mxv) = true
    rw [beq_iff_eq]
    exact h
  have hp_false : ∀ f, score_of f ≠ mxv → p f = false := by
    intro f h
    show (score_of f == mxv) = false
    rw [beq_eq_false_iff_ne]
    exact h
  have hinv : ∀ t, t ≤ n →
      ((∃ f, f < t ∧ score_of f = mxv) →
        (List.range t).foldl (gscan_step score_of sub_of) ([], 0)
          = (((List.range t).filter p).map (fun f => (sub_of f, mxv)), mxv)) ∧
      ((∀ f, f < t → score_of f ≠ mxv) → 1 ≤ t →
        ((List.range t).foldl (gscan_step score_of sub_of) ([], 0)).1 ≠ [] ∧
        ((List.range t).foldl (gscan_step score_of sub_of) ([], 0)).2
          + 2 * FITNESS_EPSILON ≤ mxv) := by
    intro t
    induction t with
    | zero =>
        intro h0
        constructor
        · rintro ⟨f, hf, -⟩
          exact absurd hf (Nat.not_lt_zero f)
        · intro _ h1
          exact absurd h1 (by omega)
    | succ t ih =>
        intro ht1
        have iht := ih (by omega)
        rw [List.range_succ, List.foldl_append, List.foldl_cons, List.foldl_nil]
        constructor
        · intro hex
          by_cases hmem : ∃ f, f < t ∧ score_of f = mxv
          · have hstA := iht.1 hmem
            rw [hstA]
            have hne_nil : ((List.range t).filter p).map (fun f => (sub_of f, mxv)) ≠ [] := by
              obtain ⟨f0, hf0, hv0⟩ := hmem
              have hmem2 : f0 ∈ (List.range t).filter p := by
                rw [List.mem_filter]
                exact ⟨List.mem_range.mpr hf0, hp_true f0 hv0⟩
              exact List.ne_nil_of_mem (List.mem_map_of_mem _ hmem2)
            rcases hsep t (by omega) with hw | hw
            · have hbet : is_better_fitness (score_of t) mxv = false := by
                rw [hw]
                exact le_not_better _ _ (le_refl _)
              rw [gscan_step_keep_push score_of sub_of _ mxv t
                (by intro hcc; rw [hbet] at hcc; exact absurd hcc.2 (by simp))
                (Or.inr (by rw [hw]; exact boe_self mxv))]
              have hr : (List.range t ++ [t]).filter p
                  = (List.range t).filter p ++ [t] := by
                rw [List.filter_append, filter_singleton_true (hp_true t hw)]
              rw [hr, List.map_append, List.map_singleton, hw]
            · have hne : score_of t ≠ mxv := by
                intro he
                rw [he] at hw
                linarith
              rw [gscan_step_keep_skip score_of sub_of _ mxv t
                (by
                  intro hcc
                  have hbet : is_better_fitness (score_of t) mxv = false :=
                    le_not_better _ _ (by linarith)
                  rw [hbet] at hcc
                  exact absurd hcc.2 (by simp))
                (by
                  intro hcc
                  rcases hcc with hcc | hcc
                  · exact hne_nil hcc
                  · rw [gap_not_boe _ _ hw] at hcc
                    exact absurd hcc (by simp))]
              have hr : (List.range t ++ [t]).filter p = (List.range t).filter p := by
                rw [List.filter_append,
                  filter_singleton_false (hp_false t hne), List.append_nil]
              rw [hr]
          · push_neg at hmem
            obtain ⟨f0, hf0, hv0⟩ := hex
            have hft : f0 = t := by
              rcases Nat.lt_or_ge f0 t with hlt | hge
              · exact absurd hv0 (hmem f0 hlt)
              · omega
            rw [hft] at hv0
            by_cases ht0 : t = 0
            · rw [ht0] at hv0
              rw [ht0, List.range_zero, List.foldl_nil]
              rw [gscan_step_keep_push score_of sub_of [] 0 0
                (by intro hcc; exact hcc.1 rfl) (Or.inl rfl)]
              simp only [List.nil_append]
              rw [filter_singleton_true (hp_true 0 hv0), List.map_singleton, hv0]
            · obtain ⟨hne, hlow⟩ := iht.2 hmem (by omega)
              rcases hf : (List.range t).foldl (gscan_step score_of sub_of) ([], 0)
                with ⟨S, hsc⟩
              rw [hf] at hne hlow
              dsimp only at hne hlow
              rw [gscan_step_clear_push score_of sub_of S hsc t
                ⟨hne, by rw [hv0]; exact gap_better _ _ hlow⟩]
              have hfe : (List.range t).filter p = [] := by
                rw [List.filter_eq_nil_iff]
                intro j hj
                rw [List.mem_range] at hj
                rw [hp_false j (hmem j hj)]
                exact Bool.false_ne_true
              rw [List.filter_append, hfe,
                filter_singleton_true (hp_true t hv0), List.nil_append,
                List.map_singleton, hv0]
        · intro hall h1le
          have hmem : ∀ f, f < t → score_of f ≠ mxv := fun f hf => hall f (by omega)
          have hwt : score_of t ≠ mxv := hall t (by omega)
          rcases hsep t (by omega) with hw | hw
          · exact absurd hw hwt
          · by_cases ht0 : t = 0
            · rw [ht0, List.range_zero, List.foldl_nil]
              rw [gscan_step_keep_push score_of sub_of [] 0 0
                (by intro hcc; exact hcc.1 rfl) (Or.inl rfl)]
              rw [ht0] at hw
              exact ⟨by simp, hw⟩
            · obtain ⟨hne, hlow⟩ := iht.2 hmem (by omega)
              rcases hf : (List.range t).foldl (gscan_step score_of sub_of) ([], 0)
                with ⟨S, hsc⟩
              rw [hf] at hne hlow
              dsimp only at hne hlow
              by_cases hc1 : S ≠ [] ∧ is_better_fitness (score_of t) hsc = true
              · rw [gscan_step_clear_push score_of sub_of S hsc t hc1]
                exact ⟨by simp, hw⟩
              · by_cases hc2 : S = [] ∨ is_better_or_equal_fitness (score_of t) hsc = true
                · rw [gscan_step_keep_push score_of sub_of S hsc t hc1 hc2]
                  exact ⟨by simp, hw⟩
                · rw [gscan_step_keep_skip score_of sub_of S hsc t hc1 hc2]
                  exact ⟨hne, hlow⟩
  obtain ⟨f0, hf0, hv0⟩ := hatt
  have hA := (hinv n (le_refl n)).1 ⟨f0, hf0, hv0⟩
  show ((List.range n).foldl (gscan_step score_of sub_of) ([], 0)).1 = _
  rw [hA]

theorem length_get_possible_substrings (n : ℕ) :
    (get_possible_substrings n).length = 2 ^ n := by
  rw [get_possible_substrings, List.length_map, List.length_range,
    Nat.shiftLeft_eq, one_mul]

theorem fold_children_eq (g : ℕ → ℚ) (base : ℚ) (s b m : ℕ) :
    (List.range b).foldl (fun sc jj => if m ≤ s + jj then sc else sc + g (s + jj)) base
      = base + (((List.range' s b).filter (fun c => decide (c < m))).map g).sum := by
  induction b with
  | zero =>
      simp
  | succ b ih =>
      rw [List.range_succ, List.foldl_append, List.foldl_cons, List.foldl_nil, ih,
        List.range'_concat, one_mul, List.filter_append, List.map_append, List.sum_append]
      by_cases hc : s + b < m
      · rw [if_neg (by omega), filter_singleton_true (by simp [hc])]
        simp [add_assoc]
      · rw [if_pos (by omega), filter_singleton_false (by simp [hc])]
        simp

theorem pass_score_eq_dp_score_low (ip : InputParameters) (cv : List (List ℚ))
    (cliques separators : List (List ℕ)) (best : List (List (List (List ℕ × ℚ))))
    (si : List ℕ) (sll cl sicl i j f : ℕ)
    (hlt : i < sll)
    (hchild : si.getD (cl + 1) 0 + ip.b * (i - sicl) = ip.b * i + 1) :
    pass_score ip cv cliques separators best si sll cl sicl i j f
      = dp_score ip cv cliques separators best i j f := by
  simp only [pass_score, dp_score]
  rw [if_pos hlt, length_get_possible_substrings, hchild]
  exact fold_children_eq
    (fun c =>
      (((best.getD c []).getD
        (transform_substring_vector_to_index
          ((get_child_separator_substring (cliques.getD i [])
            (separators.getD c [])
            ((get_possible_substrings ip.k).getD (j * 2 ^ (ip.k - ip.o) + f) [])).getD
            []))
        []).headD ([], 0)).2)
    ((cv.getD i []).getD (j * 2 ^ (ip.k - ip.o) + f) 0)
    (ip.b * i + 1) ip.b ip.m

theorem pass_score_eq_dp_score_high (ip : InputParameters) (cv : List (List ℚ))
    (cliques separators : List (List ℕ)) (best : List (List (List (List ℕ × ℚ))))
    (si : List ℕ) (sll cl sicl i j f : ℕ)
    (hge : sll ≤ i) (hm : ip.m ≤ ip.b * i + 1) :
    pass_score ip cv cliques separators best si sll cl sicl i j f
      = dp_score ip cv cliques separators best i j f := by
  simp only [pass_score, dp_score]
  rw [if_neg (by omega)]
  have hfe : (List.range' (ip.b * i + 1) ip.b).filter (fun c => decide (c < ip.m)) = [] := by
    rw [List.filter_eq_nil_iff]
    intro c hc
    rw [List.mem_range'_1] at hc
    simp only [decide_eq_true_eq]
    omega
  rw [hfe, List.map_nil, List.sum_nil, add_zero, length_get_possible_substrings]

/-- Invariant of the descending fold of the elimination pass: after processing
cliques m-1 down to m-t, the best table equals the reference recomputation dp_best
and the level registers hold the level of the last processed clique (geo_sum ip.b cl
is the start index of level cl, levels characterized by geo_sum bounds). -/
theorem elimination_pass_core (ip : InputParameters) (cv : List (List ℚ))
    (cliques separators : List (List ℕ)) (L : ℕ) (si : List ℕ) (sll l0 : ℕ)
    (hb : 1 ≤ ip.b) (hL1 : 1 ≤ L)
    (hmL : ip.m ≤ geo_sum ip.b L) (hlowm : geo_sum ip.b (L - 1) < ip.m)
    (hgetD : ∀ idx, idx < L → si.getD idx 0 = geo_sum ip.b idx)
    (hsll : sll = geo_sum ip.b (L - 1)) (hl0 : l0 = L - 1) :
    ∀ t, t ≤ ip.m - 1 → ∃ cl, cl < L ∧
      ((List.range' (ip.m - t) t).reverse).foldl
        (fun (st : List (List (List (List ℕ × ℚ))) × ℕ × ℕ) i =>
          let current_level := if i < st.2.2 then st.2.1 - 1 else st.2.1
          let start_index_current_level := if i < st.2.2 then si.getD (st.2.1 - 1) 0
            else st.2.2
          let row := (List.range (get_possible_substrings ip.o).length).map
            (fun j =>
              gscan
                (pass_score ip cv cliques separators st.1 si sll current_level
                  start_index_current_level i j)
                (fun f => (get_possible_substrings (ip.k - ip.o)).getD f [])
                (get_possible_substrings (ip.k - ip.o)).length)
          (st.1.set i row, current_level, start_index_current_level))
        (List.replicate ip.m (List.replicate (2 ^ ip.o) []), l0, sll)
        = (dp_best ip cv cliques separators t, cl, geo_sum ip.b cl) ∧
      geo_sum ip.b cl ≤ ip.m - t ∧ ip.m - t - 1 < geo_sum ip.b (cl + 1) := by
  have hmono := (geo_sum_strictMono ip.b hb).monotone
  have hLsub : L - 1 + 1 = L := by omega
  have hkeyL : geo_sum ip.b L = ip.b * geo_sum ip.b (L - 1) + 1 := by
    have h := geo_sum_key ip.b (L - 1)
    rw [hLsub] at h
    exact h
  intro t
  induction t with
  | zero =>
      intro ht
      refine ⟨L - 1, by omega, ?_, by omega, ?_⟩
      · rw [show List.range' (ip.m - 0) 0 = ([] : List ℕ) from rfl, List.reverse_nil,
          List.foldl_nil, hsll, hl0]
        rfl
      · rw [hLsub]
        omega
  | succ t ih =>
      intro ht1
      obtain ⟨cl, hclL, heq, hgle, hglt⟩ := ih (by omega)
      rw [show ip.m - (t + 1) = ip.m - 1 - t from by omega, List.range'_succ,
        show ip.m - 1 - t + 1 = ip.m - t from by omega, List.reverse_cons,
        List.foldl_append, heq, List.foldl_cons, List.foldl_nil]
      dsimp only
      simp only [length_get_possible_substrings]
      by_cases hadj : ip.m - 1 - t < geo_sum ip.b cl
      · have hcl1 : 1 ≤ cl := by
          rcases Nat.eq_zero_or_pos cl with h0 | h1
          · rw [h0] at hadj
            exact absurd hadj (by simp [geo_sum])
          · exact h1
        have hclsub : cl - 1 + 1 = cl := by omega
        have hlt1 : geo_sum ip.b (cl - 1) < geo_sum ip.b cl := by
          have h := geo_sum_lt_succ ip.b hb (cl - 1)
          rw [hclsub] at h
          exact h
        rw [if_pos hadj, if_pos hadj, hgetD (cl - 1) (by omega)]
        have hchild : si.getD (cl - 1 + 1) 0
            + ip.b * (ip.m - 1 - t - geo_sum ip.b (cl - 1)) = ip.b * (ip.m - 1 - t) + 1 := by
          rw [hclsub, hgetD cl hclL]
          have hkey : geo_sum ip.b cl = ip.b * geo_sum ip.b (cl - 1) + 1 := by
            have h := geo_sum_key ip.b (cl - 1)
            rw [hclsub] at h
            exact h
          rw [hkey]
          have hd : geo_sum ip.b (cl - 1) + (ip.m - 1 - t - geo_sum ip.b (cl - 1))
              = ip.m - 1 - t := by omega
          calc ip.b * geo_sum ip.b (cl - 1) + 1
                + ip.b * (ip.m - 1 - t - geo_sum ip.b (cl - 1))
              = ip.b * (geo_sum ip.b (cl - 1)
                  + (ip.m - 1 - t - geo_sum ip.b (cl - 1))) + 1 := by ring
            _ = ip.b * (ip.m - 1 - t) + 1 := by rw [hd]
        have hpf : ∀ j : ℕ,
            pass_score ip cv cliques separators (dp_best ip cv cliques separators t) si
              sll (cl - 1) (geo_sum ip.b (cl - 1)) (ip.m - 1 - t) j
            = dp_score ip cv cliques separators (dp_best ip cv cliques separators t)
              (ip.m - 1 - t) j := by
          intro j
          funext f
          by_cases hisll : ip.m - 1 - t < sll
          · exact pass_score_eq_dp_score_low ip cv cliques separators _ si sll _ _ _ j f
              hisll hchild
          · have hge : sll ≤ ip.m - 1 - t := Nat.le_of_not_lt hisll
            have hge2 : geo_sum ip.b (L - 1) ≤ ip.m - 1 - t := by omega
            have hbi : ip.b * geo_sum ip.b (L - 1) ≤ ip.b * (ip.m - 1 - t) :=
              Nat.mul_le_mul_left _ hge2
            exact pass_score_eq_dp_score_high ip cv cliques separators _ si sll _ _ _ j f
              hge (by omega)
        refine ⟨cl - 1, by omega, ?_, by omega, ?_⟩
        · refine congrArg₂ Prod.mk ?_ rfl
          rw [show dp_best ip cv cliques separators (t + 1)
              = (dp_best ip cv cliques separators t).set (ip.m - 1 - t)
                ((List.range (2 ^ ip.o)).map (fun j =>
                  gscan (dp_score ip cv cliques separators
                      (dp_best ip cv cliques separators t) (ip.m - 1 - t) j)
                    (fun f => (get_possible_substrings (ip.k - ip.o)).getD f [])
                    (2 ^ (ip.k - ip.o)))) from rfl]
          refine congrArg (fun r => (dp_best ip cv cliques separators t).set
            (ip.m - 1 - t) r) ?_
          refine congrArg (fun sf => List.map sf (List.range (2 ^ ip.o))) ?_
          funext j
          rw [hpf j]
        · rw [hclsub]
          omega
      · have hgecl : geo_sum ip.b cl ≤ ip.m - 1 - t := Nat.le_of_not_lt hadj
        rw [if_neg hadj, if_neg hadj]
        have hpf : ∀ j : ℕ,
            pass_score ip cv cliques separators (dp_best ip cv cliques separators t) si
              sll cl (geo_sum ip.b cl) (ip.m - 1 - t) j
            = dp_score ip cv cliques separators (dp_best ip cv cliques separators t)
              (ip.m - 1 - t) j := by
          intro j
          funext f
          by_cases hisll : ip.m - 1 - t < sll
          · have hisll2 : ip.m - 1 - t < geo_sum ip.b (L - 1) := by omega
            have hclL1 : cl < L - 1 := by
              by_contra hc
              push_neg at hc
              have h := hmono hc
              omega
            have hchild : si.getD (cl + 1) 0
                + ip.b * (ip.m - 1 - t - geo_sum ip.b cl)
                = ip.b * (ip.m - 1 - t) + 1 := by
              rw [hgetD (cl + 1) (by omega), geo_sum_key]
              have hd : geo_sum ip.b cl + (ip.m - 1 - t - geo_sum ip.b cl)
                  = ip.m - 1 - t := by omega
              calc ip.b * geo_sum ip.b cl + 1
                    + ip.b * (ip.m - 1 - t - geo_sum ip.b cl)
                  = ip.b * (geo_sum ip.b cl
                      + (ip.m - 1 - t - geo_sum ip.b cl)) + 1 := by ring
                _ = ip.b * (ip.m - 1 - t) + 1 := by rw [hd]
            exact pass_score_eq_dp_score_low ip cv cliques separators _ si sll _ _ _ j f
              hisll hchild
          · have hge : sll ≤ ip.m - 1 - t := Nat.le_of_not_lt hisll
            have hge2 : geo_sum ip.b (L - 1) ≤ ip.m - 1 - t := by omega
            have hbi : ip.b * geo_sum ip.b (L - 1) ≤ ip.b * (ip.m - 1 - t) :=
              Nat.mul_le_mul_left _ hge2
            exact pass_score_eq_dp_score_high ip cv cliques separators _ si sll _ _ _ j f
              hge (by omega)
        refine ⟨cl, hclL, ?_, by omega, by omega⟩
        refine congrArg₂ Prod.mk ?_ rfl
        rw [show dp_best ip cv cliques separators (t + 1)
            = (dp_best ip cv cliques separators t).set (ip.m - 1 - t)
              ((List.range (2 ^ ip.o)).map (fun j =>
                gscan (dp_score ip cv cliques separators
                    (dp_best ip cv cliques separators t) (ip.m - 1 - t) j)
                  (fun f => (get_possible_substrings (ip.k - ip.o)).getD f [])
                  (2 ^ (ip.k - ip.o)))) from rfl]
        refine congrArg (fun r => (dp_best ip cv cliques separators t).set
          (ip.m - 1 - t) r) ?_
        refine congrArg (fun sf => List.map sf (List.range (2 ^ ip.o))) ?_
        funext j
        rw [hpf j]

theorem getD_set_self {α : Type} (l : List α) (i : ℕ) (a d : α) (h : i < l.length) :
    (l.set i a).getD i d = a := by
  rw [List.getD_eq_getElem?_getD, List.getElem?_set_self h]
  rfl

theorem getD_set_ne {α : Type} (l : List α) (i j : ℕ) (a d : α) (h : i ≠ j) :
    (l.set i a).getD j d = l.getD j d := by
  rw [List.getD_eq_getElem?_getD, List.getElem?_set_ne h, ← List.getD_eq_getElem?_getD]

/-- The elimination pass fold computes exactly the reference recomputation dp_best
after its m-1 steps. -/
theorem elimination_pass_eq_dp_best (ip : InputParameters) (cv : List (List ℚ))
    (cliques separators : List (List ℕ)) (hm : 1 ≤ ip.m) (hb : 1 ≤ ip.b) :
    elimination_pass ip cv cliques separators
      = dp_best ip cv cliques separators (ip.m - 1) := by
  obtain ⟨L, hL1, hsi, hmL, hlowm, hall⟩ := start_indices_result_spec ip.m ip.b hb hm
  have hLsub : L - 1 + 1 = L := by omega
  have hgetD : ∀ idx, idx < L → (start_indices_result ip.m ip.b).1.getD idx 0
      = geo_sum ip.b idx := by
    intro idx hidx
    rw [hsi]
    exact getD_map_range (geo_sum ip.b) L idx 0 hidx
  have hsll : (start_indices_result ip.m ip.b).2.1
      - ip.b ^ ((start_indices_result ip.m ip.b).2.2 - 1) = geo_sum ip.b (L - 1) := by
    rw [hsi]
    show geo_sum ip.b L - ip.b ^ (L - 1) = geo_sum ip.b (L - 1)
    have h := geo_sum_succ ip.b (L - 1)
    rw [hLsub] at h
    omega
  have hl0 : (start_indices_result ip.m ip.b).2.2 - 1 = L - 1 := by
    rw [hsi]
  obtain ⟨cl, hclL, heq, hle2, hlt2⟩ := elimination_pass_core ip cv cliques separators L
    (start_indices_result ip.m ip.b).1
    ((start_indices_result ip.m ip.b).2.1
      - ip.b ^ ((start_indices_result ip.m ip.b).2.2 - 1))
    ((start_indices_result ip.m ip.b).2.2 - 1)
    hb hL1 hmL hlowm hgetD hsll hl0 (ip.m - 1) (le_refl _)
  rw [show ip.m - (ip.m - 1) = 1 from by omega] at heq
  simp only [elimination_pass]
  rw [heq]

theorem dp_best_length (ip : InputParameters) (cv : List (List ℚ))
    (cliques separators : List (List ℕ)) :
    ∀ t, (dp_best ip cv cliques separators t).length = ip.m := by
  intro t
  induction t with
  | zero => simp [dp_best]
  | succ t ih =>
      simp only [dp_best, List.length_set]
      exact ih

theorem dp_best_succ_getD_ne (ip : InputParameters) (cv : List (List ℚ))
    (cliques separators : List (List ℕ)) (t r : ℕ) (hr : ip.m - 1 - t ≠ r) :
    (dp_best ip cv cliques separators (t + 1)).getD r []
      = (dp_best ip cv cliques separators t).getD r [] := by
  simp only [dp_best]
  exact getD_set_ne _ _ _ _ _ hr

/-- Rows other than those rewritten in the step range stay unchanged. -/
theorem dp_best_getD_stable (ip : InputParameters) (cv : List (List ℚ))
    (cliques separators : List (List ℕ)) (t1 : ℕ) (r : ℕ) :
    ∀ t2, t1 ≤ t2 → (∀ u, t1 ≤ u → u < t2 → ip.m - 1 - u ≠ r) →
      (dp_best ip cv cliques separators t2).getD r []
        = (dp_best ip cv cliques separators t1).getD r [] := by
  intro t2
  induction t2 with
  | zero =>
      intro h12 _
      rw [Nat.le_zero.mp h12]
  | succ t2 ih =>
      intro h12 hr
      rcases Nat.lt_or_ge t1 (t2 + 1) with hlt | hge
      · have h12' : t1 ≤ t2 := by omega
        rw [dp_best_succ_getD_ne ip cv cliques separators t2 r (hr t2 h12' (by omega))]
        exact ih h12' (fun u hu1 hu2 => hr u hu1 (by omega))
      · rw [show t1 = t2 + 1 from by omega]

/-- A row strictly above the last processed clique of step t1 keeps its value through
all later steps. -/
theorem dp_best_getD_stable_gt (ip : InputParameters) (cv : List (List ℚ))
    (cliques separators : List (List ℕ)) (t1 t2 c : ℕ) (h12 : t1 ≤ t2)
    (hc : ip.m - 1 - t1 < c) :
    (dp_best ip cv cliques separators t2).getD c []
      = (dp_best ip cv cliques separators t1).getD c [] :=
  dp_best_getD_stable ip cv cliques separators t1 c t2 h12 (fun u hu1 _ => by omega)

/-- dp_score only reads the rows of the existing children. -/
theorem dp_score_congr (ip : InputParameters) (cv : List (List ℚ))
    (cliques separators : List (List ℕ))
    (best1 best2 : List (List (List (List ℕ × ℚ)))) (i j f : ℕ)
    (h : ∀ c, c ∈ (List.range' (ip.b * i + 1) ip.b).filter (fun c => decide (c < ip.m)) →
      best1.getD c [] = best2.getD c []) :
    dp_score ip cv cliques separators best1 i j f
      = dp_score ip cv cliques separators best2 i j f := by
  simp only [dp_score]
  congr 1
  refine congrArg List.sum ?_
  refine List.map_congr_left ?_
  intro c hc
  rw [h c hc]

/-- After the full pass, row r of the best table is the per-separator-value list of
scans of the final dp scores: the rows the children formula reads are final. -/
theorem dp_best_final_row (ip : InputParameters) (cv : List (List ℚ))
    (cliques separators : List (List ℕ)) (hb : 1 ≤ ip.b) (r : ℕ)
    (hr1 : 1 ≤ r) (hrm : r < ip.m) :
    (dp_best ip cv cliques separators (ip.m - 1)).getD r []
      = (List.range (2 ^ ip.o)).map (fun j =>
          gscan
            (dp_score ip cv cliques separators
              (dp_best ip cv cliques separators (ip.m - 1)) r j)
            (fun f => (get_possible_substrings (ip.k - ip.o)).getD f [])
            (2 ^ (ip.k - ip.o))) := by
  have hA : (dp_best ip cv cliques separators (ip.m - 1)).getD r []
      = (dp_best ip cv cliques separators (ip.m - 1 - r + 1)).getD r [] :=
    dp_best_getD_stable_gt ip cv cliques separators (ip.m - 1 - r + 1) (ip.m - 1) r
      (by omega) (by omega)
  have hB : (dp_best ip cv cliques separators (ip.m - 1 - r + 1)).getD r []
      = (List.range (2 ^ ip.o)).map (fun j =>
          gscan
            (dp_score ip cv cliques separators
              (dp_best ip cv cliques separators (ip.m - 1 - r)) r j)
            (fun f => (get_possible_substrings (ip.k - ip.o)).getD f [])
            (2 ^ (ip.k - ip.o))) := by
    simp only [dp_best]
    rw [show ip.m - 1 - (ip.m - 1 - r) = r from by omega]
    refine getD_set_self _ _ _ _ ?_
    rw [dp_best_length]
    omega
  rw [hA, hB]
  refine congrArg (fun sf => List.map sf (List.range (2 ^ ip.o))) ?_
  funext j
  refine congrArg (fun sc => gscan sc
    (fun f => (get_possible_substrings (ip.k - ip.o)).getD f []) (2 ^ (ip.k - ip.o))) ?_
  funext f
  refine dp_score_congr ip cv cliques separators _ _ r j f ?_
  intro c hc
  rw [List.mem_filter, List.mem_range'_1, decide_eq_true_eq] at hc
  have hcr : r < c := by
    have hbr : r ≤ ip.b * r := Nat.le_mul_of_pos_left r hb
    omega
  exact (dp_best_getD_stable_gt ip cv cliques separators (ip.m - 1 - r) (ip.m - 1) c
    (by omega) (by omega)).symm

/-- C2 (corrected): in the general path, after the leaves-to-root elimination pass,
for every non-root clique i and separator value j the recorded entry list
best_scores[i][j] consists exactly of the free assignments over the k-o free bits
whose score (codomain entry plus the children's recorded best scores) lies within
epsilon of the maximal score, in order, each stored with the maximal score, and in
particular the first stored tuple (the one parents read) carries the maximal score —
provided the scores are separated: every score either equals the maximum or lies at
least two epsilon below it. Without that proviso the recorded scores can differ from
the maximum (ties within epsilon are pushed without updating the running highest
score), refuting the unconditional claim. -/
theorem c2_best_scores_characterization (ip : InputParameters) (cv : List (List ℚ))
    (cliques separators : List (List ℕ))
    (hm : 1 ≤ ip.m) (hb : 1 ≤ ip.b) (ho : 1 ≤ ip.o)
    (i j : ℕ) (hi1 : 1 ≤ i) (him : i < ip.m) (hj : j < 2 ^ ip.o) (mxv : ℚ)
    (hatt : ∃ f, f < 2 ^ (ip.k - ip.o) ∧
      dp_score ip cv cliques separators (elimination_pass ip cv cliques separators) i j f
        = mxv)
    (hsep : ∀ f, f < 2 ^ (ip.k - ip.o) →
      dp_score ip cv cliques separators (elimination_pass ip cv cliques separators) i j f
          = mxv ∨
        dp_score ip cv cliques separators (elimination_pass ip cv cliques separators) i j f
            + 2 * FITNESS_EPSILON ≤ mxv) :
    ((elimination_pass ip cv cliques separators).getD i []).getD j []
      = ((List.range (2 ^ (ip.k - ip.o))).filter (fun f =>
          is_equal_fitness
            (dp_score ip cv cliques separators (elimination_pass ip cv cliques separators)
              i j f) mxv)).map
          (fun f => ((get_possible_substrings (ip.k - ip.o)).getD f [], mxv)) ∧
      (∀ e ∈ ((elimination_pass ip cv cliques separators).getD i []).getD j [],
        e.2 = mxv) ∧
      ((((elimination_pass ip cv cliques separators).getD i []).getD j []).headD
        ([], 0)).2 = mxv := by
  have heps := fitness_epsilon_pos
  have hEeq := elimination_pass_eq_dp_best ip cv cliques separators hm hb
  rw [hEeq] at hatt hsep ⊢
  have hentry : ((dp_best ip cv cliques separators (ip.m - 1)).getD i []).getD j []
      = gscan
          (dp_score ip cv cliques separators
            (dp_best ip cv cliques separators (ip.m - 1)) i j)
          (fun f => (get_possible_substrings (ip.k - ip.o)).getD f [])
          (2 ^ (ip.k - ip.o)) := by
    rw [dp_best_final_row ip cv cliques separators hb i hi1 him]
    exact getD_map_range _ (2 ^ ip.o) j [] hj
  have hfeq : ((List.range (2 ^ (ip.k - ip.o))).filter (fun f =>
        dp_score ip cv cliques separators
          (dp_best ip cv cliques separators (ip.m - 1)) i j f == mxv))
      = ((List.range (2 ^ (ip.k - ip.o))).filter (fun f =>
        is_equal_fitness
          (dp_score ip cv cliques separators
            (dp_best ip cv cliques separators (ip.m - 1)) i j f) mxv)) := by
    refine List.filter_congr ?_
    intro f hf
    rw [List.mem_range] at hf
    rcases hsep f hf with h | h
    · rw [h, equal_fitness_self]
      exact beq_self_eq_true mxv
    · rw [gap_not_equal_low_high _ _ h, beq_eq_false_iff_ne]
      intro he
      rw [he] at h
      linarith
  have hmain : gscan
      (dp_score ip cv cliques separators
        (dp_best ip cv cliques separators (ip.m - 1)) i j)
      (fun f => (get_possible_substrings (ip.k - ip.o)).getD f [])
      (2 ^ (ip.k - ip.o))
      = ((List.range (2 ^ (ip.k - ip.o))).filter (fun f =>
          is_equal_fitness
            (dp_score ip cv cliques separators
              (dp_best ip cv cliques separators (ip.m - 1)) i j f) mxv)).map
          (fun f => ((get_possible_substrings (ip.k - ip.o)).getD f [], mxv)) := by
    rw [gscan_spec _ _ _ mxv hatt hsep, hfeq]
  refine ⟨?_, ?_, ?_⟩
  · rw [hentry]
    exact hmain
  · intro e he
    rw [hentry, hmain] at he
    rw [List.mem_map] at he
    obtain ⟨f, -, rfl⟩ := he
    rfl
  · rw [hentry, hmain]
    obtain ⟨f0, hf0, hv0⟩ := hatt
    have hmem : f0 ∈ (List.range (2 ^ (ip.k - ip.o))).filter (fun f =>
        is_equal_fitness
          (dp_score ip cv cliques separators
            (dp_best ip cv cliques separators (ip.m - 1)) i j f) mxv) := by
      rw [List.mem_filter]
      exact ⟨List.mem_range.mpr hf0, by rw [hv0]; exact equal_fitness_self mxv⟩
    rcases hl : (List.range (2 ^ (ip.k - ip.o))).filter (fun f =>
        is_equal_fitness
          (dp_score ip cv cliques separators
            (dp_best ip cv cliques separators (ip.m - 1)) i j f) mxv) with _ | ⟨a, rest⟩
    · rw [hl] at hmem
      exact absurd hmem (List.not_mem_nil f0)
    · rw [List.map_cons]
      rfl

/-- C2 counterexample: on the instance m=2, k=2, o=1, b=1 with codomain table
[0, 6e-11, 0, 0] for clique 1, the recorded entry list best_scores[1][0] stores the
near-tied free assignments 0 and 1 with their own differing scores; the first stored
tuple carries score 0 while the maximal score over the free assignments is 6e-11, so
the entries are not each stored with the maximal score and the first stored tuple's
score differs from the maximum. -/
theorem c2_counterexample_first_score_not_max :
    ((elimination_pass ⟨2, 2, 1, 1⟩ [[0, 0, 0, 0], [0, 6/100000000000, 0, 0]]
        [[0, 1], [1, 2]] [[], [1]]).getD 1 []).getD 0 []
      = [([0], 0), ([1], 6/100000000000)] ∧
    dp_score ⟨2, 2, 1, 1⟩ [[0, 0, 0, 0], [0, 6/100000000000, 0, 0]]
      [[0, 1], [1, 2]] [[], [1]]
      (elimination_pass ⟨2, 2, 1, 1⟩ [[0, 0, 0, 0], [0, 6/100000000000, 0, 0]]
        [[0, 1], [1, 2]] [[], [1]]) 1 0 0 = 0 ∧
    dp_score ⟨2, 2, 1, 1⟩ [[0, 0, 0, 0], [0, 6/100000000000, 0, 0]]
      [[0, 1], [1, 2]] [[], [1]]
      (elimination_pass ⟨2, 2, 1, 1⟩ [[0, 0, 0, 0], [0, 6/100000000000, 0, 0]]
        [[0, 1], [1, 2]] [[], [1]]) 1 0 1 = 6/100000000000 ∧
    (0 : ℚ) ≠ 6/100000000000 := by
  have hsir : start_indices_result 2 1 = ([0, 1], 2, 2) := by decide
  have hr2 : List.range (1 <<< 1) = [0, 1] := by decide
  have hr2b : List.range 2 = [0, 1] := by decide
  have hr1 : List.range 1 = [0] := by decide
  have hPS0 : pass_score ⟨2, 2, 1, 1⟩ [[0, 0, 0, 0], [0, 3/50000000000, 0, 0]]
      [[0, 1], [1, 2]] [[], [1]] (List.replicate 2 (List.replicate 2 []))
      [0, 1] 1 1 1 1 0 0 = 0 := by
    norm_num [pass_score, get_possible_substrings, hr2, hr1]
  have hPS1 : pass_score ⟨2, 2, 1, 1⟩ [[0, 0, 0, 0], [0, 3/50000000000, 0, 0]]
      [[0, 1], [1, 2]] [[], [1]] (List.replicate 2 (List.replicate 2 []))
      [0, 1] 1 1 1 1 0 1 = 3/50000000000 := by
    norm_num [pass_score, get_possible_substrings, hr2, hr1]
  have d1 : is_better_fitness (3/50000000000 : ℚ) 0 = false := by
    norm_num [is_better_fitness, FITNESS_EPSILON, abs_lt]
  have d2 : is_better_or_equal_fitness (3/50000000000 : ℚ) 0 = true := by
    norm_num [is_better_or_equal_fitness, is_equal_fitness, FITNESS_EPSILON]
  refine ⟨?_, ?_, ?_, by norm_num⟩
  · norm_num [elimination_pass, hsir, hr2, hr2b, hr1, gscan,
      get_possible_substrings, List.range']
    rw [gscan_step_keep_push _ _ [] 0 0 (by intro hcc; exact hcc.1 rfl) (Or.inl rfl),
      List.nil_append]
    norm_num [gscan_step, hPS0, hPS1, d1, d2]
  · generalize elimination_pass ⟨2, 2, 1, 1⟩ [[0, 0, 0, 0], [0, 6/100000000000, 0, 0]]
      [[0, 1], [1, 2]] [[], [1]] = B
    norm_num [dp_score, List.range', hr2, hr1, get_possible_substrings]
  · generalize elimination_pass ⟨2, 2, 1, 1⟩ [[0, 0, 0, 0], [0, 6/100000000000, 0, 0]]
      [[0, 1], [1, 2]] [[], [1]] = B
    norm_num [dp_score, List.range', hr2, hr1, get_possible_substrings]

theorem c2_witness :
    ((elimination_pass ⟨2, 2, 1, 1⟩ [[0, 0, 0, 0], [5, 1, 0, 0]]
        [[0, 1], [1, 2]] [[], [1]]).getD 1 []).getD 0 [] = [([0], 5)] ∧
    ((((elimination_pass ⟨2, 2, 1, 1⟩ [[0, 0, 0, 0], [5, 1, 0, 0]]
        [[0, 1], [1, 2]] [[], [1]]).getD 1 []).getD 0 []).headD ([], 0)).2 = 5 := by
  have hr2 : List.range (1 <<< 1) = [0, 1] := by decide
  have hr1 : List.range 1 = [0] := by decide
  have hd0 : dp_score ⟨2, 2, 1, 1⟩ [[0, 0, 0, 0], [5, 1, 0, 0]] [[0, 1], [1, 2]] [[], [1]]
      (elimination_pass ⟨2, 2, 1, 1⟩ [[0, 0, 0, 0], [5, 1, 0, 0]]
        [[0, 1], [1, 2]] [[], [1]]) 1 0 0 = 5 := by
    generalize elimination_pass ⟨2, 2, 1, 1⟩ [[0, 0, 0, 0], [5, 1, 0, 0]]
      [[0, 1], [1, 2]] [[], [1]] = B
    norm_num [dp_score, List.range', hr2, hr1, get_possible_substrings]
  have hd1 : dp_score ⟨2, 2, 1, 1⟩ [[0, 0, 0, 0], [5, 1, 0, 0]] [[0, 1], [1, 2]] [[], [1]]
      (elimination_pass ⟨2, 2, 1, 1⟩ [[0, 0, 0, 0], [5, 1, 0, 0]]
        [[0, 1], [1, 2]] [[], [1]]) 1 0 1 = 1 := by
    generalize elimination_pass ⟨2, 2, 1, 1⟩ [[0, 0, 0, 0], [5, 1, 0, 0]]
      [[0, 1], [1, 2]] [[], [1]] = B
    norm_num [dp_score, List.range', hr2, hr1, get_possible_substrings]
  have hsep : ∀ f, f < 2 →
      dp_score ⟨2, 2, 1, 1⟩ [[0, 0, 0, 0], [5, 1, 0, 0]] [[0, 1], [1, 2]] [[], [1]]
        (elimination_pass ⟨2, 2, 1, 1⟩ [[0, 0, 0, 0], [5, 1, 0, 0]]
          [[0, 1], [1, 2]] [[], [1]]) 1 0 f = 5 ∨
      dp_score ⟨2, 2, 1, 1⟩ [[0, 0, 0, 0], [5, 1, 0, 0]] [[0, 1], [1, 2]] [[], [1]]
        (elimination_pass ⟨2, 2, 1, 1⟩ [[0, 0, 0, 0], [5, 1, 0, 0]]
          [[0, 1], [1, 2]] [[], [1]]) 1 0 f + 2 * FITNESS_EPSILON ≤ 5 := by
    intro f hf
    match f, hf with
    | 0, _ => exact Or.inl hd0
    | 1, _ =>
        right
        rw [hd1]
        norm_num [FITNESS_EPSILON]
  obtain ⟨ha, hmem, hfirst⟩ := c2_best_scores_characterization ⟨2, 2, 1, 1⟩
    [[0, 0, 0, 0], [5, 1, 0, 0]] [[0, 1], [1, 2]] [[], [1]]
    (by norm_num) (by norm_num) (by norm_num) 1 0 (by norm_num) (by norm_num)
    (by norm_num) 5 ⟨0, by norm_num, hd0⟩ hsep
  constructor
  · rw [ha]
    have hr2b : List.range 2 = [0, 1] := by decide
    have he1 : is_equal_fitness (1 : ℚ) 5 = false := by
      norm_num [is_equal_fitness, FITNESS_EPSILON, abs_lt]
    norm_num [hd0, hd1, he1, equal_fitness_self, get_possible_substrings, hr2, hr1,
      hr2b, List.filter_cons]
  · exact hfirst
